import Mathlib

set_option maxRecDepth 16000

/-!
Formal model of the two rewriter scripts of this repository:
optimize_logging.py (the regex variant) and optimize_logging_simple.py
(the literal variant).  File contents are modelled as lists of
characters.  The Python string operations used by the scripts
(str.replace, str.split, str.strip, str.startswith, the in operator,
list.insert, enumerate, re.sub and re.findall for the concrete patterns
appearing in the scripts) receive executable definitions, and the claims
of the specification are settled against the resulting model.
-/

/-- Prefix test on character lists, Python str.startswith. -/
def pfx : List Char → List Char → Bool
  | [], _ => true
  | _ :: _, [] => false
  | a :: p, b :: s => a == b && pfx p s

/-- Propositional prefix relation: s starts with p. -/
def Pfx (p s : List Char) : Prop := ∃ t, s = p ++ t

/-- Propositional suffix relation: s ends with x. -/
def Sfx (x s : List Char) : Prop := ∃ t, s = t ++ x

/-- Propositional substring relation, the Python in operator on strings. -/
def Ifx (q s : List Char) : Prop := ∃ u v, s = u ++ q ++ v

/-- Substring test on character lists. -/
def ifxB (q : List Char) : List Char → Bool
  | [] => q.isEmpty
  | c :: t => pfx q (c :: t) || ifxB q t

theorem pfx_iff : ∀ p s : List Char, pfx p s = true ↔ Pfx p s := by
  intro p
  induction p with
  | nil =>
    intro s
    constructor
    · intro _; exact ⟨s, rfl⟩
    · intro _; rfl
  | cons a p ih =>
    intro s
    cases s with
    | nil =>
      simp only [pfx, Pfx, List.cons_append]
      constructor
      · intro h; cases h
      · rintro ⟨t, ht⟩; cases ht
    | cons b s =>
      simp only [pfx, Bool.and_eq_true, beq_iff_eq, ih, Pfx, List.cons_append,
        List.cons.injEq]
      constructor
      · rintro ⟨rfl, t, rfl⟩; exact ⟨t, rfl, rfl⟩
      · rintro ⟨t, rfl, rfl⟩; exact ⟨rfl, t, rfl⟩

instance instDecPfx (p s : List Char) : Decidable (Pfx p s) :=
  decidable_of_iff _ (pfx_iff p s)

theorem sfx_rev_iff (x s : List Char) : Sfx x s ↔ Pfx x.reverse s.reverse := by
  constructor
  · rintro ⟨t, rfl⟩
    exact ⟨t.reverse, by simp⟩
  · rintro ⟨t, ht⟩
    refine ⟨t.reverse, ?_⟩
    have := congrArg List.reverse ht
    simpa using this

instance instDecSfx (x s : List Char) : Decidable (Sfx x s) :=
  decidable_of_iff _ (sfx_rev_iff x s).symm

theorem pfx_refl (p : List Char) : Pfx p p := ⟨[], by simp⟩

theorem pfx_nil (s : List Char) : Pfx [] s := ⟨s, rfl⟩

theorem pfx_length {p s : List Char} (h : Pfx p s) : p.length ≤ s.length := by
  obtain ⟨t, rfl⟩ := h
  simp

theorem pfx_cons_iff {a b : Char} {p s : List Char} :
    Pfx (a :: p) (b :: s) ↔ a = b ∧ Pfx p s := by
  constructor
  · rintro ⟨t, ht⟩
    rw [List.cons_append] at ht
    cases ht
    exact ⟨rfl, t, rfl⟩
  · rintro ⟨rfl, t, rfl⟩
    exact ⟨t, rfl⟩

theorem pfx_trans {p q s : List Char} (h1 : Pfx p q) (h2 : Pfx q s) : Pfx p s := by
  obtain ⟨t1, rfl⟩ := h1
  obtain ⟨t2, rfl⟩ := h2
  exact ⟨t1 ++ t2, by simp⟩

theorem pfx_append (p t : List Char) : Pfx p (p ++ t) := ⟨t, rfl⟩

theorem pfx_take {p s : List Char} (h : Pfx p s) : p = s.take p.length := by
  obtain ⟨t, rfl⟩ := h
  simp

theorem take_pfx (n : Nat) (s : List Char) : Pfx (s.take n) s :=
  ⟨s.drop n, (List.take_append_drop n s).symm⟩

theorem pfx_app_left {q x y : List Char} (h : Pfx q (x ++ y))
    (hl : q.length ≤ x.length) : Pfx q x := by
  have hq : q = (x ++ y).take q.length := pfx_take h
  rw [List.take_append_of_le_length hl] at hq
  rw [hq]
  exact take_pfx _ _

theorem pfx_app_right {q x y : List Char} (h : Pfx q (x ++ y))
    (hl : x.length ≤ q.length) : ∃ w, q = x ++ w ∧ Pfx w y := by
  obtain ⟨t, ht⟩ := h
  refine ⟨q.drop x.length, ?_, ?_⟩
  · have hx : x = q.take x.length := by
      have := congrArg (List.take x.length) ht
      rw [List.take_append_of_le_length (le_refl _),
        List.take_append_of_le_length hl, List.take_length] at this
      exact this
    conv_lhs => rw [← List.take_append_drop x.length q, ← hx]
  · have hx : x = q.take x.length := by
      have := congrArg (List.take x.length) ht
      rw [List.take_append_of_le_length (le_refl _),
        List.take_append_of_le_length hl, List.take_length] at this
      exact this
    have hy : x ++ y = (q.take x.length ++ q.drop x.length) ++ t := by
      rw [List.take_append_drop]; exact ht
    rw [← hx, List.append_assoc] at hy
    have := List.append_cancel_left hy
    exact ⟨t, this⟩

theorem pfx_comp {p q z : List Char} (h1 : Pfx p z) (h2 : Pfx q z)
    (hl : p.length ≤ q.length) : Pfx p q := by
  obtain ⟨t, rfl⟩ := h2
  exact pfx_app_left h1 hl

theorem ifx_nil {q : List Char} : Ifx q [] ↔ q = [] := by
  constructor
  · rintro ⟨u, v, h⟩
    rcases List.append_eq_nil.mp h.symm with ⟨h1, h2⟩
    rcases List.append_eq_nil.mp h1 with ⟨_, h3⟩
    exact h3
  · rintro rfl
    exact ⟨[], [], rfl⟩

theorem pfx_ifx {q s : List Char} (h : Pfx q s) : Ifx q s := by
  obtain ⟨t, rfl⟩ := h
  exact ⟨[], t, rfl⟩

theorem sfx_ifx {q s : List Char} (h : Sfx q s) : Ifx q s := by
  obtain ⟨t, rfl⟩ := h
  exact ⟨t, [], by simp⟩

theorem ifx_refl (q : List Char) : Ifx q q := ⟨[], [], by simp⟩

theorem ifx_cons {q : List Char} {c : Char} {t : List Char} :
    Ifx q (c :: t) ↔ Pfx q (c :: t) ∨ Ifx q t := by
  constructor
  · rintro ⟨u, v, h⟩
    cases u with
    | nil => exact Or.inl ⟨v, by simpa using h⟩
    | cons a u =>
      rw [List.cons_append] at h
      cases h
      exact Or.inr ⟨u, v, rfl⟩
  · rintro (⟨t2, h⟩ | ⟨u, v, h⟩)
    · exact ⟨[], t2, by simpa using h⟩
    · exact ⟨c :: u, v, by rw [h]; rfl⟩

theorem ifx_cons_tail {q : List Char} {c : Char} {t : List Char} (h : Ifx q t) :
    Ifx q (c :: t) := ifx_cons.mpr (Or.inr h)

theorem ifx_app_right {q x y : List Char} (h : Ifx q y) : Ifx q (x ++ y) := by
  obtain ⟨u, v, rfl⟩ := h
  exact ⟨x ++ u, v, by simp⟩

theorem ifx_app_left {q x y : List Char} (h : Ifx q x) : Ifx q (x ++ y) := by
  obtain ⟨u, v, rfl⟩ := h
  exact ⟨u, v ++ y, by simp⟩

theorem ifx_trans {p q s : List Char} (h1 : Ifx p q) (h2 : Ifx q s) : Ifx p s := by
  obtain ⟨u, v, rfl⟩ := h1
  obtain ⟨u2, v2, rfl⟩ := h2
  exact ⟨u2 ++ u, v ++ v2, by simp⟩

theorem pfx_ifx_trans {p q s : List Char} (h1 : Pfx p q) (h2 : Ifx q s) : Ifx p s :=
  ifx_trans (pfx_ifx h1) h2

theorem ifxB_iff (q : List Char) : ∀ s, ifxB q s = true ↔ Ifx q s := by
  intro s
  induction s with
  | nil =>
    simp only [ifxB, List.isEmpty_iff, ifx_nil]
  | cons c t ih =>
    simp only [ifxB, Bool.or_eq_true, pfx_iff, ih, ifx_cons]

instance instDecIfx (q s : List Char) : Decidable (Ifx q s) :=
  decidable_of_iff _ (ifxB_iff q s)

theorem ifx_drop {q : List Char} {n : Nat} {s : List Char} (h : Ifx q (s.drop n)) :
    Ifx q s := by
  have := ifx_app_right (x := s.take n) h
  rwa [List.take_append_drop] at this

/-- Decomposition of a substring occurrence inside an append: the
occurrence lies in the left part, lies in the right part, or spans the
boundary with a nonempty proper prefix of q ending the left part. -/
theorem ifx_append_cases {q x y : List Char} (h : Ifx q (x ++ y)) :
    Ifx q x ∨ Ifx q y ∨
      ∃ k, 0 < k ∧ k < q.length ∧ Sfx (q.take k) x ∧ Pfx (q.drop k) y := by
  induction x with
  | nil => simpa using Or.inr (Or.inl h)
  | cons a x ih =>
    rw [List.cons_append] at h
    rcases ifx_cons.mp h with hp | hi
    · by_cases hl : q.length ≤ (a :: x).length
      · exact Or.inl (pfx_ifx (pfx_app_left (by simpa using hp) hl))
      · push_neg at hl
        obtain ⟨w, hqw, hwy⟩ :=
          pfx_app_right (x := a :: x) (by simpa using hp) (le_of_lt hl)
        cases w with
        | nil =>
          rw [List.append_nil] at hqw
          exact Or.inl (hqw ▸ ifx_refl _)
        | cons b w =>
          refine Or.inr (Or.inr ⟨(a :: x).length, by simp, ?_, ?_, ?_⟩)
          · omega
          · have : q.take (a :: x).length = a :: x := by
              rw [hqw, List.take_append_of_le_length (le_refl _), List.take_length]
            rw [this]
            exact ⟨[], rfl⟩
          · have : q.drop (a :: x).length = b :: w := by
              rw [hqw, List.drop_append_of_le_length (le_refl _), List.drop_length]
              rfl
            rw [this]
            exact hwy
    · rcases ih hi with h1 | h2 | ⟨k, hk0, hkq, ⟨u, hu⟩, hp⟩
      · exact Or.inl (ifx_cons_tail h1)
      · exact Or.inr (Or.inl h2)
      · exact Or.inr (Or.inr ⟨k, hk0, hkq, ⟨a :: u, by rw [hu]; rfl⟩, hp⟩)

/-- Python str.replace on character lists, fuelled recursion.  At each
position, when the pattern starts here the replacement is emitted and
scanning resumes after the matched text; otherwise the character is
emitted.  For the empty pattern Python inserts the replacement before
every character and once more at the end, which the first two branches
reproduce.  The fuel is always instantiated with the length of the
scanned list, which suffices because every step consumes at least one
character. -/
def replaceFuel (pat rep : List Char) : Nat → List Char → List Char
  | _, [] => if pat.isEmpty then rep else []
  | 0, s => s
  | fuel + 1, c :: t =>
    if pat.isEmpty then rep ++ c :: replaceFuel pat rep fuel t
    else if pfx pat (c :: t) then
      rep ++ replaceFuel pat rep fuel (t.drop (pat.length - 1))
    else c :: replaceFuel pat rep fuel t

/-- Python str.replace: the call s.replace(pat, rep). -/
def pyReplace (s pat rep : List Char) : List Char := replaceFuel pat rep s.length s

theorem isEmpty_false_of_ne {pat : List Char} (hpat : pat ≠ []) :
    pat.isEmpty = false := by
  cases pat with
  | nil => exact absurd rfl hpat
  | cons a p => rfl

theorem replaceFuel_irrel {pat rep : List Char} (hpat : pat ≠ []) :
    ∀ f1 f2 s, s.length ≤ f1 → s.length ≤ f2 →
      replaceFuel pat rep f1 s = replaceFuel pat rep f2 s := by
  intro f1
  induction f1 with
  | zero =>
    intro f2 s h1 _
    have hs : s = [] := List.length_eq_zero.mp (Nat.le_zero.mp h1)
    subst hs
    cases f2 <;> rfl
  | succ f1 ih =>
    intro f2 s h1 h2
    cases s with
    | nil => cases f2 <;> rfl
    | cons c t =>
      cases f2 with
      | zero => simp at h2
      | succ f2 =>
        simp only [List.length_cons] at h1 h2
        cases hm : pfx pat (c :: t) with
        | true =>
          simp only [replaceFuel, isEmpty_false_of_ne hpat, Bool.false_eq_true,
            if_false, hm, if_true]
          congr 1
          apply ih f2 (t.drop (pat.length - 1)) <;> (rw [List.length_drop]; omega)
        | false =>
          simp only [replaceFuel, isEmpty_false_of_ne hpat, Bool.false_eq_true,
            if_false, hm]
          congr 1
          exact ih f2 t (by omega) (by omega)

theorem pyReplace_nil {pat : List Char} (rep : List Char) (hpat : pat ≠ []) :
    pyReplace [] pat rep = [] := by
  simp [pyReplace, replaceFuel, isEmpty_false_of_ne hpat]

theorem pyReplace_cons_match {pat : List Char} (hpat : pat ≠ []) {c : Char}
    {t : List Char} (rep : List Char) (h : pfx pat (c :: t) = true) :
    pyReplace (c :: t) pat rep = rep ++ pyReplace (t.drop (pat.length - 1)) pat rep := by
  have hstart : pyReplace (c :: t) pat rep = replaceFuel pat rep (t.length + 1) (c :: t) :=
    rfl
  rw [hstart]
  simp only [replaceFuel, isEmpty_false_of_ne hpat, Bool.false_eq_true, if_false,
    h, if_true]
  congr 1
  exact replaceFuel_irrel hpat t.length (t.drop (pat.length - 1)).length _
    (by rw [List.length_drop]; omega) (le_refl _)

theorem pyReplace_cons_nomatch {pat : List Char} (hpat : pat ≠ []) {c : Char}
    {t : List Char} (rep : List Char) (h : pfx pat (c :: t) = false) :
    pyReplace (c :: t) pat rep = c :: pyReplace t pat rep := by
  have hstart : pyReplace (c :: t) pat rep = replaceFuel pat rep (t.length + 1) (c :: t) :=
    rfl
  rw [hstart]
  simp only [replaceFuel, isEmpty_false_of_ne hpat, Bool.false_eq_true, if_false, h]
  rfl

theorem pyReplace_no_occ {pat rep : List Char} (hpat : pat ≠ []) :
    ∀ n s, s.length ≤ n → ¬ Ifx pat s → pyReplace s pat rep = s := by
  intro n
  induction n with
  | zero =>
    intro s h1 _
    have hs : s = [] := List.length_eq_zero.mp (Nat.le_zero.mp h1)
    subst hs
    exact pyReplace_nil rep hpat
  | succ n ih =>
    intro s h1 hocc
    cases s with
    | nil => exact pyReplace_nil rep hpat
    | cons c t =>
      by_cases hm : pfx pat (c :: t) = true
      · exact absurd (pfx_ifx ((pfx_iff _ _).mp hm)) hocc
      · rw [pyReplace_cons_nomatch hpat rep (Bool.not_eq_true _ ▸ hm)]
        rw [ih t (by simpa using h1) (fun hx => hocc (ifx_cons_tail hx))]

theorem pyReplace_emit {pat rep : List Char} (hpat : pat ≠ []) :
    ∀ k s, k ≤ s.length → (∀ j, j < k → pfx pat (s.drop j) = false) →
      pyReplace s pat rep = s.take k ++ pyReplace (s.drop k) pat rep := by
  intro k
  induction k with
  | zero => intro s _ _; simp
  | succ k ih =>
    intro s h1 h2
    cases s with
    | nil => simp at h1
    | cons c t =>
      have h0 : pfx pat (c :: t) = false := by
        have := h2 0 (Nat.succ_pos k)
        simpa using this
      rw [pyReplace_cons_nomatch hpat rep h0]
      rw [ih t (by simpa using h1) (fun j hj => h2 (j + 1) (by omega))]
      rfl

/-- Structure of prefixes of a replaced string: a nonempty prefix of the
output is a prefix of the input, or else splits as an emitted part of
the input followed by a nonempty piece that is a prefix of the
replacement or has the replacement as prefix. -/
theorem pfx_pyReplace_cases {pat rep : List Char} (hpat : pat ≠ []) :
    ∀ n s z, s.length ≤ n → z ≠ [] → Pfx z (pyReplace s pat rep) →
      Pfx z s ∨ ∃ u v, z = u ++ v ∧ Pfx u s ∧ v ≠ [] ∧ (Pfx v rep ∨ Pfx rep v) := by
  intro n
  induction n with
  | zero =>
    intro s z h1 hz hp
    have hs : s = [] := List.length_eq_zero.mp (Nat.le_zero.mp h1)
    subst hs
    rw [pyReplace_nil rep hpat] at hp
    obtain ⟨t, ht⟩ := hp
    exact absurd (List.append_eq_nil.mp ht.symm).1 hz
  | succ n ih =>
    intro s z h1 hz hp
    cases s with
    | nil =>
      rw [pyReplace_nil rep hpat] at hp
      obtain ⟨t, ht⟩ := hp
      exact absurd (List.append_eq_nil.mp ht.symm).1 hz
    | cons c t =>
      by_cases hm : pfx pat (c :: t) = true
      · rw [pyReplace_cons_match hpat rep hm] at hp
        by_cases hl : z.length ≤ rep.length
        · exact Or.inr ⟨[], z, rfl, pfx_nil _, hz, Or.inl (pfx_app_left hp hl)⟩
        · push_neg at hl
          obtain ⟨w, hw, _⟩ := pfx_app_right hp (le_of_lt hl)
          exact Or.inr ⟨[], z, rfl, pfx_nil _, hz, Or.inr ⟨w, hw⟩⟩
      · rw [pyReplace_cons_nomatch hpat rep (Bool.not_eq_true _ ▸ hm)] at hp
        cases z with
        | nil => exact absurd rfl hz
        | cons a z2 =>
          obtain ⟨hac, hp2⟩ := pfx_cons_iff.mp hp
          subst hac
          by_cases hz2 : z2 = []
          · subst hz2
            exact Or.inl (pfx_cons_iff.mpr ⟨rfl, pfx_nil _⟩)
          · rcases ih t z2 (by simpa using h1) hz2 hp2 with h | ⟨u, v, rfl, hu, hv, hr⟩
            · exact Or.inl (pfx_cons_iff.mpr ⟨rfl, h⟩)
            · exact Or.inr ⟨a :: u, v, rfl, pfx_cons_iff.mpr ⟨rfl, hu⟩, hv, hr⟩

/-- Replacement does not create occurrences of q, for q that cannot
overlap the replacement text; the disjunctive hypothesis also covers
the pattern itself, whose occurrences are all consumed. -/
theorem pyReplace_not_ifx {q pat rep : List Char} (hq : q ≠ []) (hpat : pat ≠ [])
    (hqr : ¬ Ifx q rep) (hrq : ¬ Ifx rep q)
    (hnt : ∀ k, 0 < k → k < q.length → ¬ Sfx (q.take k) rep)
    (hnd : ∀ k, 0 < k → k < q.length → ¬ Pfx (q.drop k) rep) :
    ∀ n s, s.length ≤ n → (¬ Ifx q s ∨ q = pat) → ¬ Ifx q (pyReplace s pat rep) := by
  intro n
  induction n with
  | zero =>
    intro s h1s _ hifx
    have hs : s = [] := List.length_eq_zero.mp (Nat.le_zero.mp h1s)
    subst hs
    rw [pyReplace_nil rep hpat] at hifx
    exact hq (ifx_nil.mp hifx)
  | succ n ih =>
    intro s h1s hcase hifx
    cases s with
    | nil =>
      rw [pyReplace_nil rep hpat] at hifx
      exact hq (ifx_nil.mp hifx)
    | cons c t =>
      simp only [List.length_cons] at h1s
      by_cases hm : pfx pat (c :: t) = true
      · rw [pyReplace_cons_match hpat rep hm] at hifx
        rcases ifx_append_cases hifx with ha | hb | ⟨k, hk0, hkq, hsf, _⟩
        · exact hqr ha
        · refine ih (t.drop (pat.length - 1)) (by rw [List.length_drop]; omega) ?_ hb
          rcases hcase with hni | rfl
          · exact Or.inl (fun hx => hni (ifx_cons_tail (ifx_drop hx)))
          · exact Or.inr rfl
        · exact hnt k hk0 hkq hsf
      · rw [pyReplace_cons_nomatch hpat rep (Bool.not_eq_true _ ▸ hm)] at hifx
        rcases ifx_cons.mp hifx with hp | hi
        · -- q would be a prefix of the emitted character plus the rest
          cases q with
          | nil => exact hq rfl
          | cons a q2 =>
            obtain ⟨hac, hp2⟩ := pfx_cons_iff.mp hp
            subst hac
            have hqct : Pfx (a :: q2) (a :: t) → False := by
              intro hpq
              rcases hcase with hni | heq
              · exact hni (pfx_ifx hpq)
              · exact hm ((pfx_iff _ _).mpr (heq ▸ hpq))
            by_cases hq2 : q2 = []
            · subst hq2
              exact hqct (pfx_cons_iff.mpr ⟨rfl, pfx_nil _⟩)
            · rcases pfx_pyReplace_cases hpat n t q2 (by omega) hq2 hp2 with
                h | ⟨u, v, huv, hu, hv, hr | hr⟩
              · exact hqct (pfx_cons_iff.mpr ⟨rfl, h⟩)
              · refine hnd (1 + u.length) (by omega) ?_ ?_
                · have hlen : (a :: q2).length = 1 + u.length + v.length := by
                    simp [huv]; omega
                  have hvpos : 0 < v.length := List.length_pos.mpr hv
                  omega
                · have hdrop : (a :: q2).drop (1 + u.length) = v := by
                    have hsplit : (a :: q2) = (a :: u) ++ v := by simp [huv]
                    rw [hsplit]
                    have hlen : (a :: u).length = 1 + u.length := by simp; omega
                    rw [← hlen, List.drop_left]
                  rw [hdrop]
                  exact hr
              · apply hrq
                obtain ⟨w, rfl⟩ := hr
                exact ⟨a :: u, w, by simp [huv]⟩
        · refine ih t (by omega) ?_ hi
          rcases hcase with hni | rfl
          · exact Or.inl (fun hx => hni (ifx_cons_tail hx))
          · exact Or.inr rfl

/-- Replacement preserves occurrences of q whenever occurrences of q
cannot intersect occurrences of the pattern. -/
theorem pyReplace_ifx_mono {q pat rep : List Char} (hq : q ≠ []) (hpat : pat ≠ [])
    (hpq : ¬ Ifx pat q) (hqp : ¬ Ifx q pat)
    (hnd : ∀ k, 0 < k → k < q.length → ¬ Pfx (q.drop k) pat)
    (hnt : ∀ k, 0 < k → k < q.length → ¬ Sfx (q.take k) pat) :
    ∀ n s, s.length ≤ n → Ifx q s → Ifx q (pyReplace s pat rep) := by
  intro n
  induction n with
  | zero =>
    intro s h1s hifx
    have hs : s = [] := List.length_eq_zero.mp (Nat.le_zero.mp h1s)
    subst hs
    exact absurd (ifx_nil.mp hifx) hq
  | succ n ih =>
    intro s h1s hifx
    cases s with
    | nil => exact absurd (ifx_nil.mp hifx) hq
    | cons c t =>
      simp only [List.length_cons] at h1s
      by_cases hm : pfx pat (c :: t) = true
      · rw [pyReplace_cons_match hpat rep hm]
        have hsplit : c :: t = pat ++ t.drop (pat.length - 1) := by
          obtain ⟨w, hw⟩ := (pfx_iff _ _).mp hm
          rw [hw]
          congr 1
          cases pat with
          | nil => exact absurd rfl hpat
          | cons b p =>
            have hw2 : t = p ++ w := by
              rw [List.cons_append] at hw
              exact ((List.cons.injEq _ _ _ _).mp hw).2
            rw [hw2]
            simp [List.drop_left]
        rw [hsplit] at hifx
        rcases ifx_append_cases hifx with ha | hb | ⟨k, hk0, hkq, hsf, _⟩
        · exact absurd ha hqp
        · exact ifx_app_right (ih _ (by rw [List.length_drop]; omega) hb)
        · exact absurd hsf (hnt k hk0 hkq)
      · rw [pyReplace_cons_nomatch hpat rep (Bool.not_eq_true _ ▸ hm)]
        rcases ifx_cons.mp hifx with hp | hi
        · -- an occurrence at position zero: its characters are emitted
          cases q with
          | nil => exact absurd rfl hq
          | cons a q2 =>
            obtain ⟨hac, hp2⟩ := pfx_cons_iff.mp hp
            subst hac
            refine ifx_cons.mpr (Or.inl (pfx_cons_iff.mpr ⟨rfl, ?_⟩))
            by_cases hq2 : q2 = []
            · subst hq2; exact pfx_nil _
            · obtain ⟨w, rfl⟩ := hp2
              have hnm : ∀ j, j < q2.length → pfx pat ((q2 ++ w).drop j) = false := by
                intro j hj
                by_contra hbad
                have hpm : Pfx pat ((q2 ++ w).drop j) :=
                  (pfx_iff _ _).mp (Bool.not_eq_false _ ▸ hbad)
                rw [List.drop_append_of_le_length (le_of_lt hj)] at hpm
                by_cases hlen : pat.length ≤ (q2.drop j).length
                · have hfull : Pfx pat (q2.drop j) := pfx_app_left hpm hlen
                  have hdj : (a :: q2).drop (j + 1) = q2.drop j := rfl
                  exact hpq (ifx_drop (n := j + 1) (s := a :: q2)
                    (hdj ▸ pfx_ifx hfull))
                · push_neg at hlen
                  have hqd : Pfx (q2.drop j) pat :=
                    pfx_comp (pfx_append _ w) hpm (le_of_lt hlen)
                  have hdj : (a :: q2).drop (j + 1) = q2.drop j := rfl
                  exact hnd (j + 1) (by omega) (by simp; omega) (hdj ▸ hqd)
              have hemit := @pyReplace_emit pat rep hpat q2.length (q2 ++ w)
                (by simp) hnm
              rw [hemit, List.take_left]
              exact ⟨pyReplace ((q2 ++ w).drop q2.length) pat rep, rfl⟩
        · exact ifx_cons_tail (ih t (by omega) hi)

/-- Python str.split on the newline character. -/
def splitNl : List Char → List (List Char)
  | [] => [[]]
  | c :: t =>
    let r := splitNl t
    if c = '\n' then [] :: r else (c :: r.headI) :: r.tail

/-- Python newline join, the inverse of splitNl. -/
def joinNl : List (List Char) → List Char
  | [] => []
  | [l] => l
  | l :: ls => l ++ '\n' :: joinNl ls

/-- Python list.insert: insert before the given index, appending when the
index reaches past the end. -/
def insertAt {α : Type} : Nat → α → List α → List α
  | _, a, [] => [a]
  | 0, a, l => a :: l
  | n + 1, a, x :: xs => x :: insertAt n a xs

theorem splitNl_ne_nil : ∀ s, splitNl s ≠ [] := by
  intro s
  cases s with
  | nil => simp [splitNl]
  | cons c t =>
    simp only [splitNl]
    by_cases hc : c = '\n' <;> simp [hc]

theorem cons_headI_tail {ls : List (List Char)} (h : ls ≠ []) :
    ls.headI :: ls.tail = ls := by
  cases ls with
  | nil => exact absurd rfl h
  | cons l ls => rfl

theorem joinNl_cons {l : List Char} {ls : List (List Char)} (h : ls ≠ []) :
    joinNl (l :: ls) = l ++ '\n' :: joinNl ls := by
  cases ls with
  | nil => exact absurd rfl h
  | cons x xs => rfl

theorem joinNl_splitNl : ∀ s, joinNl (splitNl s) = s := by
  intro s
  induction s with
  | nil => rfl
  | cons c t ih =>
    simp only [splitNl]
    by_cases hc : c = '\n'
    · subst hc
      rw [if_pos rfl, joinNl_cons (splitNl_ne_nil t), ih]
      rfl
    · rw [if_neg hc]
      rcases hr : splitNl t with _ | ⟨l, ls⟩
      · exact absurd hr (splitNl_ne_nil t)
      · cases ls with
        | nil =>
          simp only [List.headI, List.tail]
          rw [hr] at ih
          simpa [joinNl] using congrArg (c :: ·) ih
        | cons l2 ls2 =>
          simp only [List.headI, List.tail]
          rw [hr] at ih
          rw [joinNl_cons (by simp), List.cons_append]
          rw [joinNl_cons (by simp)] at ih
          rw [← List.cons_append, ← ih]
          simp

theorem splitNl_no_nl : ∀ s, ∀ l ∈ splitNl s, ∀ c ∈ l, c ≠ '\n' := by
  intro s
  induction s with
  | nil =>
    intro l hl c hc
    simp [splitNl] at hl
    subst hl
    simp at hc
  | cons a t ih =>
    intro l hl c hc
    simp only [splitNl] at hl
    by_cases ha : a = '\n'
    · rw [if_pos ha] at hl
      rcases List.mem_cons.mp hl with rfl | hl2
      · simp at hc
      · exact ih l hl2 c hc
    · rw [if_neg ha] at hl
      rcases List.mem_cons.mp hl with rfl | hl2
      · rcases List.mem_cons.mp hc with rfl | hc2
        · exact ha
        · refine ih (splitNl t).headI ?_ c hc2
          have := cons_headI_tail (splitNl_ne_nil t)
          rw [← this]
          exact List.mem_cons_self _ _
      · refine ih l ?_ c hc
        have := cons_headI_tail (splitNl_ne_nil t)
        rw [← this]
        exact List.mem_cons_of_mem _ hl2

theorem headI_splitNl_pfx : ∀ t, Pfx (splitNl t).headI t := by
  intro t
  induction t with
  | nil => exact pfx_nil _
  | cons c t ih =>
    simp only [splitNl]
    by_cases hc : c = '\n'
    · rw [if_pos hc]
      exact pfx_nil _
    · rw [if_neg hc]
      exact pfx_cons_iff.mpr ⟨rfl, ih⟩

theorem splitNl_append_nonl {y : List Char} (hy : ∀ c ∈ y, c ≠ '\n') :
    ∀ x, splitNl (y ++ x) = (y ++ (splitNl x).headI) :: (splitNl x).tail := by
  induction y with
  | nil =>
    intro x
    simp only [List.nil_append]
    exact (cons_headI_tail (splitNl_ne_nil x)).symm
  | cons a y ih =>
    intro x
    have ha : a ≠ '\n' := hy a (List.mem_cons_self _ _)
    have hstep : splitNl ((a :: y) ++ x) =
        (a :: (splitNl (y ++ x)).headI) :: (splitNl (y ++ x)).tail := by
      rw [List.cons_append]
      simp only [splitNl, if_neg ha]
    rw [hstep, ih (fun c hc => hy c (List.mem_cons_of_mem _ hc)) x]
    simp

theorem match_split {pat : List Char} (hpat : pat ≠ []) {c : Char} {t : List Char}
    (hm : pfx pat (c :: t) = true) :
    c :: t = pat ++ t.drop (pat.length - 1) := by
  obtain ⟨w, hw⟩ := (pfx_iff _ _).mp hm
  rw [hw]
  congr 1
  cases pat with
  | nil => exact absurd rfl hpat
  | cons b p =>
    have hw2 : t = p ++ w := by
      rw [List.cons_append] at hw
      exact ((List.cons.injEq _ _ _ _).mp hw).2
    rw [hw2]
    simp [List.drop_left]

/-- A replacement whose pattern and replacement contain no newline acts
linewise: splitting commutes with it. -/
theorem splitNl_pyReplace {pat rep : List Char} (hpat : pat ≠ [])
    (hpn : ∀ c ∈ pat, c ≠ '\n') (hrn : ∀ c ∈ rep, c ≠ '\n') :
    ∀ n s, s.length ≤ n →
      splitNl (pyReplace s pat rep) =
        (splitNl s).map (fun l => pyReplace l pat rep) := by
  intro n
  induction n with
  | zero =>
    intro s h1
    have hs : s = [] := List.length_eq_zero.mp (Nat.le_zero.mp h1)
    subst hs
    rw [pyReplace_nil rep hpat]
    simp [splitNl, pyReplace_nil rep hpat]
  | succ n ih =>
    intro s h1
    cases s with
    | nil =>
      rw [pyReplace_nil rep hpat]
      simp [splitNl, pyReplace_nil rep hpat]
    | cons c t =>
      simp only [List.length_cons] at h1
      by_cases hm : pfx pat (c :: t) = true
      · have hsplit := match_split hpat hm
        set t2 := t.drop (pat.length - 1) with ht2
        rw [pyReplace_cons_match hpat rep hm]
        have hlent2 : t2.length ≤ n := by rw [ht2, List.length_drop]; omega
        have hiht2 := ih t2 hlent2
        rcases hshape : splitNl t2 with _ | ⟨L, LS⟩
        · exact absurd hshape (splitNl_ne_nil t2)
        · have hout : splitNl (pyReplace t2 pat rep) =
              pyReplace L pat rep :: LS.map (fun l => pyReplace l pat rep) := by
            rw [hiht2, hshape]
            rfl
          rw [splitNl_append_nonl hrn, hout]
          simp only [List.headI, List.tail]
          rw [hsplit, splitNl_append_nonl hpn, hshape]
          simp only [List.headI, List.tail, List.map]
          congr 1
          -- pyReplace over pat ++ L matches at position zero
          cases pat with
          | nil => exact absurd rfl hpat
          | cons b p =>
            have hm2 : pfx (b :: p) (b :: (p ++ L)) = true := by
              rw [pfx_iff]
              exact ⟨L, by simp⟩
            have := @pyReplace_cons_match (b :: p) (by simp) b (p ++ L) rep hm2
            rw [List.cons_append, this]
            congr 1
            have : (p ++ L).drop ((b :: p).length - 1) = L := by
              simp [List.drop_left]
            rw [this]
      · rw [pyReplace_cons_nomatch hpat rep (Bool.not_eq_true _ ▸ hm)]
        by_cases hc : c = '\n'
        · simp only [splitNl, if_pos hc]
          rw [ih t (by omega)]
          simp [pyReplace_nil rep hpat]
        · simp only [splitNl, if_neg hc]
          rw [ih t (by omega)]
          rcases hshape : splitNl t with _ | ⟨L, LS⟩
          · exact absurd hshape (splitNl_ne_nil t)
          · simp only [List.headI, List.tail, List.map]
            congr 1
            -- no match at the head of the first line either
            have hnm2 : pfx pat (c :: L) = false := by
              by_contra hbad
              have hpm : Pfx pat (c :: L) :=
                (pfx_iff _ _).mp (Bool.not_eq_false _ ▸ hbad)
              have hLt : Pfx L t := by
                have := headI_splitNl_pfx t
                rwa [hshape] at this
              have : Pfx pat (c :: t) :=
                pfx_trans hpm (pfx_cons_iff.mpr ⟨rfl, hLt⟩)
              exact hm ((pfx_iff _ _).mpr this)
            exact (pyReplace_cons_nomatch hpat rep hnm2).symm

/-- Python whitespace: the characters stripped by str.strip and matched
by str.isspace, including the Unicode space code points. -/
def isPyWs (c : Char) : Bool :=
  c == ' ' || c == '\t' || c == '\n' || c == '\x0b' || c == '\x0c' || c == '\r' ||
  c == '\x1c' || c == '\x1d' || c == '\x1e' || c == '\x1f' || c == '\x85' ||
  c == '\xa0' || c == '\u1680' ||
  (decide ('\u2000' ≤ c) && decide (c ≤ '\u200a')) ||
  c == '\u2028' || c == '\u2029' || c == '\u202f' || c == '\u205f' || c == '\u3000'

/-- Left part of Python str.strip. -/
def stripLeft (s : List Char) : List Char := s.dropWhile isPyWs

/-- Right part of Python str.strip. -/
def stripRight (s : List Char) : List Char := (s.reverse.dropWhile isPyWs).reverse

/-- Python str.strip with no arguments. -/
def pyStrip (s : List Char) : List Char := stripRight (stripLeft s)

/-- The per-line test of the line scan in optimize_logging_simple.py:
line.strip().startswith of the import keyword followed by a space. -/
def isImportLine (l : List Char) : Bool := pfx (("import ").data) (pyStrip l)

/-- The forward scan keeping the last hit: for i, line in
enumerate(lines), when the line passes the test the index is
overwritten.  none models the initial sentinel -1. -/
def lastImportIdx (lines : List (List Char)) : Option Nat :=
  lines.enum.foldl (fun acc p => if isImportLine p.2 then some p.1 else acc) none

/-- Python list.insert semantics again, shared helper lemmas. -/
theorem insertAt_decomp {α : Type} :
    ∀ (n : Nat) (a : α) (l : List α), n ≤ l.length →
      insertAt n a l = l.take n ++ a :: l.drop n := by
  intro n
  induction n with
  | zero =>
    intro a l _
    cases l <;> rfl
  | succ n ih =>
    intro a l hl
    cases l with
    | nil => simp at hl
    | cons x xs =>
      simp only [insertAt, List.take, List.drop, List.cons_append]
      rw [ih a xs (by simpa using hl)]

theorem mem_insertAt_self {α : Type} :
    ∀ (n : Nat) (a : α) (l : List α), a ∈ insertAt n a l := by
  intro n
  induction n with
  | zero =>
    intro a l
    cases l <;> simp [insertAt]
  | succ n ih =>
    intro a l
    cases l with
    | nil => simp [insertAt]
    | cons x xs => simpa [insertAt] using Or.inr (ih a xs)

theorem mem_insertAt {α : Type} :
    ∀ (n : Nat) (a : α) (l : List α) (x : α), x ∈ insertAt n a l → x = a ∨ x ∈ l := by
  intro n
  induction n with
  | zero =>
    intro a l x hx
    cases l with
    | nil => simpa [insertAt] using hx
    | cons y ys => simpa [insertAt] using hx
  | succ n ih =>
    intro a l x hx
    cases l with
    | nil => simpa [insertAt] using hx
    | cons y ys =>
      simp only [insertAt, List.mem_cons] at hx
      rcases hx with rfl | hx2
      · exact Or.inr (List.mem_cons_self _ _)
      · rcases ih a ys x hx2 with h | h
        · exact Or.inl h
        · exact Or.inr (List.mem_cons_of_mem _ h)

theorem ifx_joinNl_of_mem : ∀ (ls : List (List Char)) (l : List Char), l ∈ ls →
    Ifx l (joinNl ls) := by
  intro ls
  induction ls with
  | nil => intro l hl; simp at hl
  | cons x xs ih =>
    intro l hl
    rcases List.mem_cons.mp hl with rfl | hl2
    · cases xs with
      | nil => exact ifx_refl l
      | cons y ys =>
        rw [joinNl_cons (by simp)]
        exact ifx_app_left (ifx_refl l)
    · have hxs : xs ≠ [] := by
        intro h
        rw [h] at hl2
        simp at hl2
      rw [joinNl_cons hxs]
      exact ifx_app_right (ifx_cons_tail (ih l hl2))

/-- A substring without newlines of a joined line list occurs inside one
of the lines. -/
theorem ifx_joinNl_elim {q : List Char} (hq : q ≠ []) (hqn : ∀ c ∈ q, c ≠ '\n') :
    ∀ ls, Ifx q (joinNl ls) → ∃ l ∈ ls, Ifx q l := by
  intro ls
  induction ls with
  | nil =>
    intro h
    rw [show joinNl [] = [] from rfl] at h
    exact absurd (ifx_nil.mp h) hq
  | cons x xs ih =>
    intro h
    cases xs with
    | nil => exact ⟨x, List.mem_cons_self _ _, h⟩
    | cons y ys =>
      rw [joinNl_cons (by simp)] at h
      rcases ifx_append_cases h with hx | hrest | ⟨k, hk0, hkq, _, hp⟩
      · exact ⟨x, List.mem_cons_self _ _, hx⟩
      · rcases ifx_cons.mp hrest with hp | hi
        · obtain ⟨w, hw⟩ := hp
          cases q with
          | nil => exact absurd rfl hq
          | cons a q2 =>
            rw [List.cons_append] at hw
            have : a = '\n' := ((List.cons.injEq _ _ _ _).mp hw).1.symm
            exact absurd this (hqn a (List.mem_cons_self _ _))
        · obtain ⟨l, hl, hifx⟩ := ih hi
          exact ⟨l, List.mem_cons_of_mem _ hl, hifx⟩
      · obtain ⟨w, hw⟩ := hp
        rcases hd : q.drop k with _ | ⟨d, ds⟩
        · have := congrArg List.length hd
          simp [List.length_drop] at this
          omega
        · rw [hd, List.cons_append] at hw
          have hdn : d = '\n' := ((List.cons.injEq _ _ _ _).mp hw).1.symm
          have hdq : d ∈ q := by
            have : d ∈ q.drop k := by rw [hd]; exact List.mem_cons_self _ _
            exact List.mem_of_mem_drop this
          exact absurd hdn (hqn d hdq)

theorem splitNl_nonl {l : List Char} (hl : ∀ c ∈ l, c ≠ '\n') :
    splitNl l = [l] := by
  induction l with
  | nil => rfl
  | cons c t ih =>
    have hc : c ≠ '\n' := hl c (List.mem_cons_self _ _)
    simp only [splitNl, if_neg hc]
    rw [ih (fun x hx => hl x (List.mem_cons_of_mem _ hx))]
    rfl

theorem splitNl_joinNl : ∀ ls, ls ≠ [] → (∀ l ∈ ls, ∀ c ∈ l, c ≠ '\n') →
    splitNl (joinNl ls) = ls := by
  intro ls
  induction ls with
  | nil => intro h _; exact absurd rfl h
  | cons x xs ih =>
    intro _ hno
    cases xs with
    | nil =>
      exact splitNl_nonl (hno x (List.mem_cons_self _ _))
    | cons y ys =>
      rw [joinNl_cons (by simp)]
      rw [splitNl_append_nonl (hno x (List.mem_cons_self _ _))]
      have hsy : splitNl ('\n' :: joinNl (y :: ys)) = [] :: splitNl (joinNl (y :: ys)) := by
        simp [splitNl]
      rw [hsy]
      rw [ih (by simp) (fun l hl => hno l (List.mem_cons_of_mem _ hl))]
      simp

theorem lastImportIdx_aux_none :
    ∀ (ls : List (List Char)) (n : Nat) (acc : Option Nat),
      (ls.enumFrom n).foldl (fun acc p => if isImportLine p.2 then some p.1 else acc) acc
          = none ↔
        acc = none ∧ ∀ l ∈ ls, isImportLine l = false := by
  intro ls
  induction ls with
  | nil =>
    intro n acc
    simp [List.enumFrom]
  | cons l ls ih =>
    intro n acc
    have hstep : (l :: ls).enumFrom n = (n, l) :: ls.enumFrom (n + 1) := rfl
    rw [hstep, List.foldl_cons, ih]
    cases hl : isImportLine l with
    | true =>
      simp only [hl, if_true, List.forall_mem_cons]
      constructor
      · rintro ⟨h, _⟩; cases h
      · rintro ⟨_, h, _⟩; cases h
    | false =>
      simp [hl, List.forall_mem_cons]

theorem lastImportIdx_none_iff (lines : List (List Char)) :
    lastImportIdx lines = none ↔ ∀ l ∈ lines, isImportLine l = false := by
  have h : lastImportIdx lines =
      (lines.enumFrom 0).foldl
        (fun acc p => if isImportLine p.2 then some p.1 else acc) none := rfl
  rw [h, lastImportIdx_aux_none]
  simp

theorem lastImportIdx_aux_some :
    ∀ (ls : List (List Char)) (n : Nat) (acc : Option Nat) (k : Nat),
      (ls.enumFrom n).foldl (fun acc p => if isImportLine p.2 then some p.1 else acc) acc
          = some k →
        ((∀ l ∈ ls, isImportLine l = false) ∧ acc = some k) ∨
        (∃ j, k = n + j ∧ (∃ lj, ls[j]? = some lj ∧ isImportLine lj = true) ∧
          ∀ i li, j < i → ls[i]? = some li → isImportLine li = false) := by
  intro ls
  induction ls with
  | nil =>
    intro n acc k h
    simp only [List.enumFrom, List.foldl] at h
    exact Or.inl ⟨by simp, h⟩
  | cons l ls ih =>
    intro n acc k h
    have hstep : (l :: ls).enumFrom n = (n, l) :: ls.enumFrom (n + 1) := rfl
    rw [hstep, List.foldl_cons] at h
    rcases ih (n + 1) _ k h with ⟨hall, hacc⟩ | ⟨j, hk, ⟨lj, hget, himp⟩, hafter⟩
    · cases hl : isImportLine l with
      | false =>
        left
        refine ⟨?_, by simpa [hl] using hacc⟩
        intro x hx
        rcases List.mem_cons.mp hx with rfl | hx2
        · exact hl
        · exact hall x hx2
      | true =>
        have hacc2 : some n = some k := by simpa [hl] using hacc
        have hkn : n = k := by injection hacc2
        right
        refine ⟨0, by omega, ⟨l, by simp, hl⟩, ?_⟩
        intro i li hi hgi
        cases i with
        | zero => omega
        | succ i2 =>
          have hgi2 : ls[i2]? = some li := by simpa using hgi
          have : li ∈ ls := by
            obtain ⟨hlt, hval⟩ := List.getElem?_eq_some.mp hgi2
            exact hval ▸ List.getElem_mem hlt
          exact hall li this
    · right
      refine ⟨j + 1, by omega, ⟨lj, by simpa using hget, himp⟩, ?_⟩
      intro i li hi hgi
      cases i with
      | zero => omega
      | succ i2 =>
        exact hafter i2 li (by omega) (by simpa using hgi)

theorem lastImportIdx_some_spec {lines : List (List Char)} {k : Nat}
    (h : lastImportIdx lines = some k) :
    (∃ lk, lines[k]? = some lk ∧ isImportLine lk = true) ∧
      ∀ i li, k < i → lines[i]? = some li → isImportLine li = false := by
  have h2 : (lines.enumFrom 0).foldl
      (fun acc p => if isImportLine p.2 then some p.1 else acc) none = some k := h
  rcases lastImportIdx_aux_some lines 0 none k h2 with ⟨_, hacc⟩ | ⟨j, hk, hj, hafter⟩
  · cases hacc
  · have hjk : j = k := by omega
    subst hjk
    exact ⟨hj, hafter⟩

theorem lastImportIdx_some_lt {lines : List (List Char)} {k : Nat}
    (h : lastImportIdx lines = some k) : k < lines.length := by
  obtain ⟨⟨lk, hget, _⟩, _⟩ := lastImportIdx_some_spec h
  exact (List.getElem?_eq_some.mp hget).1

/-- Result of one optimize_file call on a file of the given content:
the overwritten content when a write happened, and the boolean returned
to the caller. -/
structure FileResult where
  written : Option (List Char)
  ret : Bool
deriving DecidableEq, Repr

/-- The print-call marker tested with the Python in operator. -/
def printMarker : List Char := ("print(").data

/-- The target import searched with the in operator; the same text is
the line inserted by the line-scan variant. -/
def targetImport : List Char := ("import PerformanceLogger").data

/-- The loop: for old, new in replacements: content = content.replace(old, new). -/
def applyRules (rules : List (List Char × List Char)) (content : List Char) : List Char :=
  rules.foldl (fun c r => pyReplace c r.1 r.2) content

namespace OptimizeLoggingSimple

/-- The replacement table of optimize_logging_simple.py, pair for pair.
In the Python source a double backslash denotes one backslash
character, exactly as in these Lean literals. -/
def replacements : List (List Char × List Char) := [
  (("print(\"🔄 JournalView: Loading drawing for journal page date: \\(currentDate)\")").data,
   ("logPerformance(\"Loading drawing for journal page date: \\(currentDate)\")").data),
  (("print(\"🔄 JournalView: Loaded existing drawing for date: \\(targetDate)\")").data,
   ("logPerformance(\"Loaded existing drawing for date: \\(targetDate)\")").data),
  (("print(\"⚠️ JournalView: Date changed during drawing load, ignoring stale data\")").data,
   ("logWarning(\"Date changed during drawing load, ignoring stale data\")").data),
  (("print(\"🔄 JournalView: No existing drawing found for date: \\(targetDate)\")").data,
   ("logPerformance(\"No existing drawing found for date: \\(targetDate)\")").data),
  (("print(\"⚠️ JournalView: Save blocked - operation in progress\")").data,
   ("logWarning(\"Save blocked - operation in progress\")").data),
  (("print(\"💾 JournalView: Starting explicit save to iCloud for \\(currentDate)\")").data,
   ("logPerformance(\"Starting explicit save to iCloud for \\(currentDate)\")").data),
  (("print(\"💾 JournalView: Saving drawing to iCloud\")").data,
   ("logPerformance(\"Saving drawing to iCloud\")").data),
  (("print(\"💾 JournalView: Saving photos to iCloud\")").data,
   ("logPerformance(\"Saving photos to iCloud\")").data),
  (("print(\"✅ JournalView: Successfully saved to iCloud\")").data,
   ("logInfo(\"Successfully saved to iCloud\")").data),
  (("print(\"❌ JournalView: Failed to save to iCloud: \\(error.localizedDescription)\")").data,
   ("logError(\"Failed to save to iCloud: \\(error.localizedDescription)\")").data),
  (("print(\"⚠️ JournalView: Load blocked - operation in progress\")").data,
   ("logWarning(\"Load blocked - operation in progress\")").data),
  (("print(\"📥 JournalView: Loading from iCloud for \\(currentDate)\")").data,
   ("logPerformance(\"Loading from iCloud for \\(currentDate)\")").data),
  (("print(\"📥 JournalView: Successfully loaded drawing from iCloud\")").data,
   ("logInfo(\"Successfully loaded drawing from iCloud\")").data),
  (("print(\"📥 JournalView: No drawing found in iCloud\")").data,
   ("logInfo(\"No drawing found in iCloud\")").data),
  (("print(\"✅ JournalView: Successfully loaded from iCloud\")").data,
   ("logInfo(\"Successfully loaded from iCloud\")").data),
  (("print(\"❌ JournalView: Failed to load from iCloud: \\(error.localizedDescription)\")").data,
   ("logError(\"Failed to load from iCloud: \\(error.localizedDescription)\")").data),
  (("print(\"⚠️ JournalView: Date switch blocked - save/load in progress\")").data,
   ("logWarning(\"Date switch blocked - save/load in progress\")").data),
  (("print(\"🔄 JournalView: Switching to date \\(newDate)\")").data,
   ("logPerformance(\"Switching to date \\(newDate)\")").data)
]
/-- Import insertion step of optimize_file (lines 18 to 28 of
optimize_logging_simple.py): when the content lacks the target import
and contains the print marker, split into lines, find the index of the
last line whose stripped text starts the import keyword, and insert the
line import PerformanceLogger right after it; with no such line the
content is returned unchanged. -/
def importStep (content : List Char) : List Char :=
  if !(ifxB targetImport content) && ifxB printMarker content then
    match lastImportIdx (splitNl content) with
    | some i => joinNl (insertAt (i + 1) targetImport (splitNl content))
    | none => content
  else content

/-- The in-memory transformation of optimize_file: import insertion
followed by the sequential replacement loop. -/
def process (content : List Char) : List Char :=
  applyRules replacements (importStep content)

/-- optimize_file of optimize_logging_simple.py: build the new content,
write back only when it differs from the original, and return whether a
write happened. -/
def optimize_file (content : List Char) : FileResult :=
  if process content = content then ⟨none, false⟩
  else ⟨some (process content), true⟩

end OptimizeLoggingSimple

/-- Decidable overlap conditions stating that the string q can neither
occur inside rep nor overlap an occurrence of rep at either boundary. -/
def safePair (q rep : List Char) : Bool :=
  !(ifxB q rep) && !(ifxB rep q) &&
  (List.range q.length).all (fun k =>
    decide (k = 0) ||
      (!(decide (Sfx (q.take k) rep)) && !(decide (Pfx (q.drop k) rep))))

theorem safePair_spec {q rep : List Char} (h : safePair q rep = true) :
    ¬ Ifx q rep ∧ ¬ Ifx rep q ∧
    (∀ k, 0 < k → k < q.length → ¬ Sfx (q.take k) rep) ∧
    (∀ k, 0 < k → k < q.length → ¬ Pfx (q.drop k) rep) := by
  simp only [safePair, Bool.and_eq_true, List.all_eq_true, List.mem_range,
    Bool.or_eq_true, Bool.not_eq_true', decide_eq_true_eq,
    decide_eq_false_iff_not] at h
  obtain ⟨⟨h1, h2⟩, h3⟩ := h
  refine ⟨?_, ?_, ?_, ?_⟩
  · intro hx
    rw [(ifxB_iff _ _).mpr hx] at h1
    cases h1
  · intro hx
    rw [(ifxB_iff _ _).mpr hx] at h2
    cases h2
  · intro k hk0 hkq
    rcases h3 k hkq with hz | ⟨hs, _⟩
    · omega
    · exact hs
  · intro k hk0 hkq
    rcases h3 k hkq with hz | ⟨_, hp⟩
    · omega
    · exact hp

/-- Decidable conditions stating that occurrences of q and of pat can
never intersect. -/
def passPair (q pat : List Char) : Bool :=
  !(ifxB pat q) && !(ifxB q pat) &&
  (List.range q.length).all (fun k =>
    decide (k = 0) ||
      (!(decide (Pfx (q.drop k) pat)) && !(decide (Sfx (q.take k) pat))))

theorem passPair_spec {q pat : List Char} (h : passPair q pat = true) :
    ¬ Ifx pat q ∧ ¬ Ifx q pat ∧
    (∀ k, 0 < k → k < q.length → ¬ Pfx (q.drop k) pat) ∧
    (∀ k, 0 < k → k < q.length → ¬ Sfx (q.take k) pat) := by
  simp only [passPair, Bool.and_eq_true, List.all_eq_true, List.mem_range,
    Bool.or_eq_true, Bool.not_eq_true', decide_eq_true_eq,
    decide_eq_false_iff_not] at h
  obtain ⟨⟨h1, h2⟩, h3⟩ := h
  refine ⟨?_, ?_, ?_, ?_⟩
  · intro hx
    rw [(ifxB_iff _ _).mpr hx] at h1
    cases h1
  · intro hx
    rw [(ifxB_iff _ _).mpr hx] at h2
    cases h2
  · intro k hk0 hkq
    rcases h3 k hkq with hz | ⟨hp, _⟩
    · omega
    · exact hp
  · intro k hk0 hkq
    rcases h3 k hkq with hz | ⟨_, hs⟩
    · omega
    · exact hs

theorem applyRules_cons (r : List Char × List Char)
    (rs : List (List Char × List Char)) (c : List Char) :
    applyRules (r :: rs) c = applyRules rs (pyReplace c r.1 r.2) := rfl

/-- Applying a rule list cannot create an occurrence of q when q has no
overlap with any replacement text. -/
theorem applyRules_keeps_not_ifx {q : List Char} (hq : q ≠ []) :
    ∀ rules : List (List Char × List Char), ∀ c : List Char,
      (∀ r ∈ rules, r.1 ≠ [] ∧ safePair q r.2 = true) →
      ¬ Ifx q c → ¬ Ifx q (applyRules rules c) := by
  intro rules
  induction rules with
  | nil => intro c _ h; exact h
  | cons r rs ih =>
    intro c hall h
    obtain ⟨hr1, hr2⟩ := hall r (List.mem_cons_self _ _)
    obtain ⟨hqr, hrq, hnt, hnd⟩ := safePair_spec hr2
    have hstep : ¬ Ifx q (pyReplace c r.1 r.2) :=
      pyReplace_not_ifx hq hr1 hqr hrq hnt hnd c.length c (le_refl _) (Or.inl h)
    rw [applyRules_cons]
    exact ih _ (fun x hx => hall x (List.mem_cons_of_mem _ hx)) hstep

/-- After the full pass no rule pattern occurs in the content: the pass
of the rule erases its occurrences, and rules listed later cannot
recreate them. -/
theorem applyRules_no_old :
    ∀ rules : List (List Char × List Char),
      (∀ r ∈ rules, r.1 ≠ []) →
      (∀ r ∈ rules, safePair r.1 r.2 = true) →
      rules.Pairwise (fun r r2 => safePair r.1 r2.2 = true) →
      ∀ r ∈ rules, ∀ c, ¬ Ifx r.1 (applyRules rules c) := by
  intro rules
  induction rules with
  | nil => intro _ _ _ r hr; simp at hr
  | cons r0 rs ih =>
    intro hne hself horder r hr c
    obtain ⟨hord0, hordrest⟩ := List.pairwise_cons.mp horder
    rcases List.mem_cons.mp hr with rfl | hr2
    · rw [applyRules_cons]
      have hq : r.1 ≠ [] := hne r (List.mem_cons_self _ _)
      obtain ⟨hqr, hrq, hnt, hnd⟩ :=
        safePair_spec (hself r (List.mem_cons_self _ _))
      have hstep : ¬ Ifx r.1 (pyReplace c r.1 r.2) :=
        pyReplace_not_ifx hq hq hqr hrq hnt hnd c.length c (le_refl _) (Or.inr rfl)
      exact applyRules_keeps_not_ifx hq rs _
        (fun x hx => ⟨hne x (List.mem_cons_of_mem _ hx), hord0 x hx⟩) hstep
    · rw [applyRules_cons]
      exact ih (fun x hx => hne x (List.mem_cons_of_mem _ hx))
        (fun x hx => hself x (List.mem_cons_of_mem _ hx)) hordrest r hr2 _

/-- Applying a rule list preserves an occurrence of q when q cannot
intersect any pattern. -/
theorem applyRules_keeps_ifx {q : List Char} (hq : q ≠ []) :
    ∀ rules : List (List Char × List Char), ∀ c : List Char,
      (∀ r ∈ rules, r.1 ≠ [] ∧ passPair q r.1 = true) →
      Ifx q c → Ifx q (applyRules rules c) := by
  intro rules
  induction rules with
  | nil => intro c _ h; exact h
  | cons r rs ih =>
    intro c hall h
    obtain ⟨hr1, hr2⟩ := hall r (List.mem_cons_self _ _)
    obtain ⟨hpq, hqp, hnd, hnt⟩ := passPair_spec hr2
    have hstep : Ifx q (pyReplace c r.1 r.2) :=
      pyReplace_ifx_mono hq hr1 hpq hqp hnd hnt c.length c (le_refl _) h
    rw [applyRules_cons]
    exact ih _ (fun x hx => hall x (List.mem_cons_of_mem _ hx)) hstep

/-- A pass is the identity on content containing none of the patterns. -/
theorem applyRules_id :
    ∀ rules : List (List Char × List Char),
      (∀ r ∈ rules, r.1 ≠ []) →
      ∀ c, (∀ r ∈ rules, ¬ Ifx r.1 c) → applyRules rules c = c := by
  intro rules
  induction rules with
  | nil => intro _ c _; rfl
  | cons r rs ih =>
    intro hne c hnone
    rw [applyRules_cons]
    rw [pyReplace_no_occ (hne r (List.mem_cons_self _ _)) c.length c (le_refl _)
      (hnone r (List.mem_cons_self _ _))]
    exact ih (fun x hx => hne x (List.mem_cons_of_mem _ hx)) c
      (fun x hx => hnone x (List.mem_cons_of_mem _ hx))

/-- The second pass of the rule list changes nothing. -/
theorem applyRules_idem (rules : List (List Char × List Char))
    (hne : ∀ r ∈ rules, r.1 ≠ [])
    (hself : ∀ r ∈ rules, safePair r.1 r.2 = true)
    (horder : rules.Pairwise (fun r r2 => safePair r.1 r2.2 = true)) (c : List Char) :
    applyRules rules (applyRules rules c) = applyRules rules c :=
  applyRules_id rules hne _
    (fun r hr => applyRules_no_old rules hne hself horder r hr c)

/-- Splitting into lines commutes with a full pass of newline-free
rules. -/
theorem splitNl_applyRules :
    ∀ rules : List (List Char × List Char),
      (∀ r ∈ rules, r.1 ≠ []) →
      (∀ r ∈ rules, (∀ ch ∈ r.1, ch ≠ '\n') ∧ (∀ ch ∈ r.2, ch ≠ '\n')) →
      ∀ c, splitNl (applyRules rules c) =
        (splitNl c).map (fun l => applyRules rules l) := by
  intro rules
  induction rules with
  | nil =>
    intro _ _ c
    have : (fun l => applyRules [] l) = fun l : List Char => l := rfl
    rw [this, List.map_id']
    rfl
  | cons r rs ih =>
    intro hne hnl c
    rw [applyRules_cons]
    rw [ih (fun x hx => hne x (List.mem_cons_of_mem _ hx))
      (fun x hx => hnl x (List.mem_cons_of_mem _ hx))]
    rw [splitNl_pyReplace (hne r (List.mem_cons_self _ _))
      (hnl r (List.mem_cons_self _ _)).1 (hnl r (List.mem_cons_self _ _)).2
      c.length c (le_refl _)]
    rw [List.map_map]
    rfl

namespace OptimizeLoggingSimple

theorem rules_ne : ∀ r ∈ replacements, r.1 ≠ [] := by decide

theorem rules_marker : ∀ r ∈ replacements, Pfx printMarker r.1 := by decide

theorem rules_nonl : ∀ r ∈ replacements,
    (∀ ch ∈ r.1, ch ≠ '\n') ∧ (∀ ch ∈ r.2, ch ≠ '\n') := by decide

theorem rules_self_safe : ∀ r ∈ replacements, safePair r.1 r.2 = true := by decide

theorem rules_target_safe : ∀ r ∈ replacements,
    safePair targetImport r.2 = true := by decide

theorem rules_target_pass : ∀ r ∈ replacements,
    passPair targetImport r.1 = true := by decide

theorem rules_not_in_import : ∀ r ∈ replacements, ¬ Ifx r.1 targetImport := by
  decide

theorem rules_pairwise_safe :
    replacements.Pairwise (fun r r2 => safePair r.1 r2.2 = true) := by decide

end OptimizeLoggingSimple

theorem dropWhile_append_all {p : Char → Bool} :
    ∀ a b : List Char, (∀ c ∈ a, p c = true) → (a ++ b).dropWhile p = b.dropWhile p := by
  intro a
  induction a with
  | nil => intro b _; rfl
  | cons x a2 ih =>
    intro b hall
    rw [List.cons_append, List.dropWhile_cons]
    rw [hall x (List.mem_cons_self _ _)]
    simp only [if_true]
    exact ih b (fun c hc => hall c (List.mem_cons_of_mem _ hc))

theorem dropWhile_append_first {p : Char → Bool} :
    ∀ a b : List Char, (∃ c ∈ a, p c = false) →
      (a ++ b).dropWhile p = a.dropWhile p ++ b := by
  intro a
  induction a with
  | nil => rintro b ⟨c, hc, _⟩; simp at hc
  | cons x a2 ih =>
    rintro b ⟨c, hc, hcp⟩
    rw [List.cons_append, List.dropWhile_cons, List.dropWhile_cons]
    cases hx : p x with
    | false => simp
    | true =>
      simp only [if_true]
      refine ih b ⟨c, ?_, hcp⟩
      rcases List.mem_cons.mp hc with rfl | h2
      · rw [hx] at hcp; cases hcp
      · exact h2

theorem dropWhile_head_false {p : Char → Bool} :
    ∀ (l : List Char) (c : Char) (t : List Char),
      l.dropWhile p = c :: t → p c = false := by
  intro l
  induction l with
  | nil => intro c t h; cases h
  | cons x l2 ih =>
    intro c t h
    rw [List.dropWhile_cons] at h
    cases hx : p x with
    | true =>
      rw [hx] at h
      simp only [if_true] at h
      exact ih c t h
    | false =>
      rw [hx] at h
      simp only [Bool.false_eq_true, if_false] at h
      obtain ⟨rfl, _⟩ := (List.cons.injEq _ _ _ _).mp h
      exact hx

theorem stripRight_pfx (x : List Char) : Pfx (stripRight x) x := by
  refine ⟨(x.reverse.takeWhile isPyWs).reverse, ?_⟩
  have h := List.takeWhile_append_dropWhile (p := isPyWs) (l := x.reverse)
  have h2 := congrArg List.reverse h
  rw [List.reverse_append, List.reverse_reverse] at h2
  exact h2.symm

theorem stripRight_append_keep {y z : List Char} (h : ∃ c ∈ z, isPyWs c = false) :
    stripRight (y ++ z) = y ++ stripRight z := by
  unfold stripRight
  rw [List.reverse_append]
  rw [dropWhile_append_first z.reverse y.reverse (by
    obtain ⟨c, hc, hcf⟩ := h
    exact ⟨c, List.mem_reverse.mpr hc, hcf⟩)]
  rw [List.reverse_append, List.reverse_reverse]

theorem stripRight_append_ws {y z : List Char} (h : ∀ c ∈ z, isPyWs c = true) :
    stripRight (y ++ z) = stripRight y := by
  unfold stripRight
  rw [List.reverse_append]
  rw [dropWhile_append_all z.reverse y.reverse (fun c hc =>
    h c (List.mem_reverse.mp hc))]

theorem stripLeft_cons_no_ws {r0 : Char} {r2 : List Char} (h : isPyWs r0 = false) :
    stripLeft (r0 :: r2) = r0 :: r2 := by
  unfold stripLeft
  rw [List.dropWhile_cons, h]
  simp

/-- Decomposition of a line into leading whitespace and a rest whose
head, when present, is not whitespace. -/
theorem ws_decomp (l : List Char) : ∃ w r, l = w ++ r ∧
    (∀ c ∈ w, isPyWs c = true) ∧ stripLeft l = r ∧
    (r = [] ∨ ∃ r0 r2, r = r0 :: r2 ∧ isPyWs r0 = false) := by
  refine ⟨l.takeWhile isPyWs, l.dropWhile isPyWs,
    (List.takeWhile_append_dropWhile isPyWs l).symm,
    fun c hc => List.mem_takeWhile_imp hc, rfl, ?_⟩
  rcases hdw : l.dropWhile isPyWs with _ | ⟨r0, r2⟩
  · exact Or.inl rfl
  · exact Or.inr ⟨r0, r2, rfl, dropWhile_head_false l r0 r2 hdw⟩

/-- The replacement does not touch a leading run of whitespace when the
pattern starts with a non-whitespace character. -/
theorem pyReplace_ws_prefix {pat rep : List Char} {p0 : Char} {pt : List Char}
    (hpe : pat = p0 :: pt) (hp0 : isPyWs p0 = false) :
    ∀ w r : List Char, (∀ c ∈ w, isPyWs c = true) →
      pyReplace (w ++ r) pat rep = w ++ pyReplace r pat rep := by
  have hpat : pat ≠ [] := by rw [hpe]; exact List.cons_ne_nil _ _
  intro w
  induction w with
  | nil => intro r _; rfl
  | cons c w2 ih =>
    intro r hws
    have hc : isPyWs c = true := hws c (List.mem_cons_self _ _)
    have hnm : pfx pat (c :: (w2 ++ r)) = false := by
      rw [hpe]
      show (p0 == c && pfx pt (w2 ++ r)) = false
      have hne : (p0 == c) = false := by
        cases hbe : p0 == c
        · rfl
        · have heq : p0 = c := eq_of_beq hbe
          rw [heq, hc] at hp0
          cases hp0
      rw [hne, Bool.false_and]
    rw [List.cons_append, pyReplace_cons_nomatch hpat rep hnm,
      ih r (fun x hx => hws x (List.mem_cons_of_mem _ hx))]
    rfl

/-- Head test for patterns: nonempty with a non-whitespace head. -/
def headNotWs : List Char → Bool
  | [] => false
  | c :: _ => !(isPyWs c)

/-- Head test for replacements: nonempty, non-whitespace head, and the
head differs from every character of the import keyword tail. -/
def headRepOk : List Char → Bool
  | [] => false
  | c :: _ => !(isPyWs c) && !(decide (c ∈ (("mport ").data)))

/-- Decidable conditions under which a replacement rule can neither make
the stripped text of a line begin with the import keyword nor remove
that property. -/
def importSafe (pat rep : List Char) : Bool :=
  headNotWs pat && headRepOk rep &&
  decide (7 ≤ pat.length) && decide (7 ≤ rep.length) &&
  !(pfx (("import ").data) rep) &&
  (List.range 7).all (fun j => !(pfx ((("import ").data).drop j) pat))

theorem importSafe_spec {pat rep : List Char} (h : importSafe pat rep = true) :
    (∃ p0 pt, pat = p0 :: pt ∧ isPyWs p0 = false) ∧
    (∃ c0 ct, rep = c0 :: ct ∧ isPyWs c0 = false ∧ ¬ (c0 ∈ ("mport ").data)) ∧
    7 ≤ pat.length ∧ 7 ≤ rep.length ∧
    ¬ Pfx (("import ").data) rep ∧
    (∀ j, j < 7 → ¬ Pfx ((("import ").data).drop j) pat) := by
  simp only [importSafe, Bool.and_eq_true, Bool.not_eq_true', decide_eq_true_eq,
    List.all_eq_true, List.mem_range] at h
  obtain ⟨⟨⟨⟨⟨hhp, hhr⟩, hpl⟩, hrl⟩, hni⟩, hjs⟩ := h
  refine ⟨?_, ?_, hpl, hrl, ?_, ?_⟩
  · cases pat with
    | nil => cases hhp
    | cons c t =>
      refine ⟨c, t, rfl, ?_⟩
      simpa [headNotWs] using hhp
  · cases rep with
    | nil => cases hhr
    | cons c t =>
      simp only [headRepOk, Bool.and_eq_true, Bool.not_eq_true',
        decide_eq_false_iff_not] at hhr
      exact ⟨c, t, rfl, hhr.1, hhr.2⟩
  · intro hx
    rw [(pfx_iff _ _).mpr hx] at hni
    cases hni
  · intro j hj hx
    have := hjs j hj
    rw [(pfx_iff _ _).mpr hx] at this
    cases this

theorem stripLeft_append_ws {w x : List Char} (h : ∀ c ∈ w, isPyWs c = true) :
    stripLeft (w ++ x) = stripLeft x := dropWhile_append_all w x h

/-- Linewise safety: under the importSafe conditions the replacement
cannot make the stripped text of a line begin with the import keyword
when it did not before. -/
theorem isImportLine_pyReplace {pat rep : List Char}
    (hsafe : importSafe pat rep = true) :
    ∀ l, isImportLine (pyReplace l pat rep) = true → isImportLine l = true := by
  obtain ⟨⟨p0, pt, hpe, hp0⟩, ⟨c0, ct, hre, hc0w, hc0m⟩, hplen, hrlen, hnoimp, hjs⟩ :=
    importSafe_spec hsafe
  have hpat : pat ≠ [] := by rw [hpe]; exact List.cons_ne_nil _ _
  have himpl : (("import ").data).length = 7 := rfl
  intro l h
  obtain ⟨w, r, hlwr, hwws, hsll, hrsh⟩ := ws_decomp l
  have hW1 : pyReplace l pat rep = w ++ pyReplace r pat rep := by
    conv_lhs => rw [hlwr]
    exact pyReplace_ws_prefix hpe hp0 w r hwws
  unfold isImportLine at h
  rcases hrsh with rfl | ⟨r0, r2, hrr, hr0⟩
  · -- rest empty: the stripped replaced line is empty
    exfalso
    rw [hW1, pyReplace_nil rep hpat, List.append_nil] at h
    have hstrw : pyStrip w = [] := by
      unfold pyStrip
      have hsw : stripLeft w = [] := by
        have := stripLeft_append_ws (x := ([] : List Char)) hwws
        simpa using this
      rw [hsw]
      rfl
    rw [hstrw] at h
    exact absurd h (by decide)
  · have hstrip : pyStrip (pyReplace l pat rep) =
        stripRight (pyReplace r pat rep) := by
      rw [hW1]
      unfold pyStrip
      rw [stripLeft_append_ws hwws]
      congr 1
      rw [hrr]
      cases hm : pfx pat (r0 :: r2) with
      | true =>
        rw [pyReplace_cons_match hpat rep hm, hre, List.cons_append]
        exact stripLeft_cons_no_ws hc0w
      | false =>
        rw [pyReplace_cons_nomatch hpat rep hm]
        exact stripLeft_cons_no_ws hr0
    rw [hstrip] at h
    have hPfxImp : Pfx (("import ").data) (pyReplace r pat rep) :=
      pfx_trans ((pfx_iff _ _).mp h) (stripRight_pfx _)
    cases hm : pfx pat (r0 :: r2) with
    | true =>
      exfalso
      rw [hrr, pyReplace_cons_match hpat rep hm] at hPfxImp
      exact hnoimp (pfx_app_left hPfxImp (by omega))
    | false =>
      rw [hrr, pyReplace_cons_nomatch hpat rep hm] at hPfxImp
      have himp7 : ("import ").data = 'i' :: ("mport ").data := rfl
      rw [himp7] at hPfxImp
      obtain ⟨hi, hmp⟩ := pfx_cons_iff.mp hPfxImp
      rcases pfx_pyReplace_cases hpat r2.length r2 (("mport ").data) (le_refl _)
          (by decide) hmp with hcaseA | ⟨u, v, huv, hu, hv, hvr | hvr⟩
      · -- the line itself starts with the import keyword after the blanks
        have hfull : Pfx (("import ").data) r := by
          rw [hrr, himp7]
          exact pfx_cons_iff.mpr ⟨hi, hcaseA⟩
        obtain ⟨ρ, hρ⟩ := hfull
        by_cases hρws : ∀ c ∈ ρ, isPyWs c = true
        · -- all-whitespace tail: the stripped text is the bare keyword
          exfalso
          have hnm7 : ∀ j, j < 7 → pfx pat (r.drop j) = false := by
            intro j hj
            cases hbad : pfx pat (r.drop j) with
            | false => rfl
            | true =>
              exfalso
              have hpm : Pfx pat (r.drop j) := (pfx_iff _ _).mp hbad
              rw [hρ, List.drop_append_of_le_length (by omega)] at hpm
              have hcmp : Pfx ((("import ").data).drop j) pat := by
                refine pfx_comp (pfx_append _ ρ) hpm ?_
                rw [List.length_drop, himpl]
                omega
              exact hjs j hj hcmp
          have hemit : pyReplace r pat rep =
              r.take 7 ++ pyReplace (r.drop 7) pat rep := by
            refine pyReplace_emit hpat 7 r ?_ hnm7
            rw [hρ, List.length_append, himpl]
            omega
          have htake : r.take 7 = ("import ").data := by
            rw [hρ, ← himpl]
            exact List.take_left _ _
          have hdrop : r.drop 7 = ρ := by
            rw [hρ, ← himpl]
            exact List.drop_left _ _
          have hid : pyReplace ρ pat rep = ρ := by
            refine pyReplace_no_occ hpat ρ.length ρ (le_refl _) ?_
            rintro ⟨a, b, hab⟩
            have hp0m : p0 ∈ ρ := by
              rw [hab, hpe]
              exact List.mem_append.mpr (Or.inl
                (List.mem_append.mpr (Or.inr (List.mem_cons_self _ _))))
            rw [hρws p0 hp0m] at hp0
            cases hp0
          have hreq : pyReplace r pat rep = ("import ").data ++ ρ := by
            rw [hemit, htake, hdrop, hid]
          rw [hreq, stripRight_append_ws hρws] at h
          have hsri : stripRight (("import ").data) = ("import").data := by decide
          rw [hsri] at h
          exact absurd h (by decide)
        · -- a non-whitespace character in the tail: already an import line
          push_neg at hρws
          obtain ⟨cx, hcx, hcxw⟩ := hρws
          have hcxf : isPyWs cx = false := by
            cases hx : isPyWs cx
            · rfl
            · exact absurd hx hcxw
          unfold isImportLine pyStrip
          rw [hsll, hρ, stripRight_append_keep ⟨cx, hcx, hcxf⟩]
          exact (pfx_iff _ _).mpr (pfx_append _ _)
      · -- a nonempty piece of the keyword tail would begin the replacement
        exfalso
        rcases hvs : v with _ | ⟨v0, v2⟩
        · exact hv hvs
        · have hv0mem : v0 ∈ ("mport ").data := by
            rw [huv, hvs]
            exact List.mem_append.mpr (Or.inr (List.mem_cons_self _ _))
          obtain ⟨tx, htx⟩ := hvr
          rw [hvs, List.cons_append, hre] at htx
          have hcv : c0 = v0 := ((List.cons.injEq _ _ _ _).mp htx).1
          exact hc0m (hcv ▸ hv0mem)
      · -- the replacement inside the keyword tail is too long
        exfalso
        have h6 : v.length ≤ 6 := by
          have hlen : (u ++ v).length = 6 := by rw [← huv]; rfl
          rw [List.length_append] at hlen
          omega
        have := pfx_length hvr
        omega

theorem isImportLine_applyRules :
    ∀ rules : List (List Char × List Char),
      (∀ r ∈ rules, importSafe r.1 r.2 = true) →
      ∀ l, isImportLine (applyRules rules l) = true → isImportLine l = true := by
  intro rules
  induction rules with
  | nil => intro _ l h; exact h
  | cons r rs ih =>
    intro hall l h
    rw [applyRules_cons] at h
    exact isImportLine_pyReplace (hall r (List.mem_cons_self _ _)) l
      (ih (fun x hx => hall x (List.mem_cons_of_mem _ hx)) _ h)

namespace OptimizeLoggingSimple

theorem rules_import_safe : ∀ r ∈ replacements, importSafe r.1 r.2 = true := by
  decide

theorem target_ne : targetImport ≠ [] := by decide

theorem importStep_target {c : List Char} (h : Ifx targetImport c) :
    importStep c = c := by
  have hb : ifxB targetImport c = true := (ifxB_iff _ _).mpr h
  simp [importStep, hb]

theorem importStep_no_marker {c : List Char} (h : ¬ Ifx printMarker c) :
    importStep c = c := by
  have hb : ifxB printMarker c = false := by
    cases hx : ifxB printMarker c
    · rfl
    · exact absurd ((ifxB_iff _ _).mp hx) h
  simp [importStep, hb]

theorem importStep_none {c : List Char}
    (hidx : lastImportIdx (splitNl c) = none) : importStep c = c := by
  cases hg : (!(ifxB targetImport c) && ifxB printMarker c)
  · simp [importStep, hg]
  · simp [importStep, hg, hidx]

theorem importStep_insert {c : List Char} {k : Nat}
    (hg : (!(ifxB targetImport c) && ifxB printMarker c) = true)
    (hidx : lastImportIdx (splitNl c) = some k) :
    importStep c = joinNl (insertAt (k + 1) targetImport (splitNl c)) := by
  simp [importStep, hg, hidx]

theorem process_no_old (c : List Char) :
    ∀ r ∈ replacements, ¬ Ifx r.1 (process c) :=
  fun r hr => applyRules_no_old replacements rules_ne rules_self_safe
    rules_pairwise_safe r hr (importStep c)

/-- On a second run the import step does nothing. -/
theorem importStep_process (c : List Char) :
    importStep (process c) = process c := by
  by_cases ht : Ifx targetImport c
  · have h1 : importStep c = c := importStep_target ht
    have h2 : Ifx targetImport (process c) := by
      unfold process
      rw [h1]
      exact applyRules_keeps_ifx target_ne replacements c
        (fun r hr => ⟨rules_ne r hr, rules_target_pass r hr⟩) ht
    exact importStep_target h2
  · by_cases hm : Ifx printMarker c
    · rcases hidx : lastImportIdx (splitNl c) with _ | k
      · have h1 : importStep c = c := importStep_none hidx
        have hproc : process c = applyRules replacements c := by
          unfold process
          rw [h1]
        have hnt : ¬ Ifx targetImport (process c) := by
          rw [hproc]
          exact applyRules_keeps_not_ifx target_ne replacements c
            (fun r hr => ⟨rules_ne r hr, rules_target_safe r hr⟩) ht
        by_cases hm2 : Ifx printMarker (process c)
        · have hlines : lastImportIdx (splitNl (process c)) = none := by
            rw [lastImportIdx_none_iff]
            intro l hl
            rw [hproc, splitNl_applyRules replacements rules_ne
              (fun r hr => rules_nonl r hr) c] at hl
            obtain ⟨l0, hl0, rfl⟩ := List.mem_map.mp hl
            have hl0n : isImportLine l0 = false :=
              (lastImportIdx_none_iff (splitNl c)).mp hidx l0 hl0
            cases hres : isImportLine (applyRules replacements l0) with
            | false => rfl
            | true =>
              exfalso
              have := isImportLine_applyRules replacements rules_import_safe l0 hres
              rw [hl0n] at this
              cases this
          exact importStep_none hlines
        · exact importStep_no_marker hm2
      · have hg : (!(ifxB targetImport c) && ifxB printMarker c) = true := by
          have hb1 : ifxB targetImport c = false := by
            cases hx : ifxB targetImport c
            · rfl
            · exact absurd ((ifxB_iff _ _).mp hx) ht
          have hb2 : ifxB printMarker c = true := (ifxB_iff _ _).mpr hm
          rw [hb1, hb2]
          rfl
        have h1 : importStep c = joinNl (insertAt (k + 1) targetImport (splitNl c)) :=
          importStep_insert hg hidx
        have h2 : Ifx targetImport (importStep c) := by
          rw [h1]
          exact ifx_joinNl_of_mem _ _ (mem_insertAt_self _ _ _)
        have h3 : Ifx targetImport (process c) :=
          applyRules_keeps_ifx target_ne replacements _
            (fun r hr => ⟨rules_ne r hr, rules_target_pass r hr⟩) h2
        exact importStep_target h3
    · have h1 : importStep c = c := importStep_no_marker hm
      have h2 : process c = c := by
        unfold process
        rw [h1]
        exact applyRules_id replacements rules_ne c (fun r hr hocc =>
          hm (pfx_ifx_trans (rules_marker r hr) hocc))
      rw [h2, h1]

/-- The transformation of optimize_logging_simple.py is idempotent. -/
theorem process_idem (c : List Char) : process (process c) = process c := by
  have h1 : importStep (process c) = process c := importStep_process c
  show applyRules replacements (importStep (process c)) = process c
  rw [h1]
  exact applyRules_id replacements rules_ne _ (process_no_old c)

end OptimizeLoggingSimple

/-- Error raised by the re module of CPython. -/
inductive ReErr where
  | invalidGroupRef
deriving DecidableEq, Repr

/-- The two shapes of regular expressions occurring in
optimize_logging.py: a literal sequence (all metacharacters escaped),
and a literal prefix followed by a greedy dot-star and a literal suffix
(the bare-wildcard emoji rules).  The dot does not match a newline. -/
inductive RePat where
  | lit : List Char → RePat
  | wild : List Char → List Char → RePat
deriving DecidableEq, Repr

/-- One re.sub rule of the regex variant: the pattern, the number of
capturing groups of the pattern (zero throughout this script, since
every parenthesis in the patterns is escaped), and the replacement
template text. -/
structure ReRule where
  pat : RePat
  groups : Nat
  repl : List Char
deriving DecidableEq, Repr

/-- Group references of a replacement template as parsed by the re
module: a backslash followed by a digit from one to nine.  A double
backslash is a literal backslash; backslash zero would be an octal
escape and no template of the script contains one. -/
def replRefs : List Char → List Nat
  | [] => []
  | '\\' :: d :: rest =>
    if '1' ≤ d ∧ d ≤ '9' then (d.toNat - ('0').toNat) :: replRefs rest
    else replRefs rest
  | _ :: rest => replRefs rest

/-- Expansion of a template without group references: known letter
escapes decode to control characters, a double backslash to one
backslash, and unknown non-letter escapes such as backslash-parenthesis
stay verbatim, as in CPython.  A digit escape denotes a group reference
and is only reachable after the group check of pyReSub passed; with
zero capturing groups no digit escape survives that check. -/
def expandRepl : List Char → List Char
  | [] => []
  | '\\' :: 'n' :: rest => '\n' :: expandRepl rest
  | '\\' :: 't' :: rest => '\t' :: expandRepl rest
  | '\\' :: 'r' :: rest => '\r' :: expandRepl rest
  | '\\' :: '\\' :: rest => '\\' :: expandRepl rest
  | '\\' :: c :: rest => '\\' :: c :: expandRepl rest
  | c :: rest => c :: expandRepl rest

/-- Greedy match of a pattern at the start of s, returning the length
of the matched text.  For the wild shape the dot-star consumes as many
non-newline characters as possible, backtracking until the literal
suffix fits. -/
def rePatMatchAt (p : RePat) (s : List Char) : Option Nat :=
  match p with
  | RePat.lit cs => if pfx cs s then some cs.length else none
  | RePat.wild pre suf =>
    if pfx pre s then
      let rest := s.drop pre.length
      let win := rest.takeWhile (fun c => !(c == '\n'))
      (List.range (win.length + 1)).reverse.findSome? (fun m =>
        if pfx suf (rest.drop m) then some (pre.length + m + suf.length)
        else none)
    else none

/-- The scan of re.sub: leftmost matches, non-overlapping, resuming
after the matched text.  No pattern of the script can match the empty
string, so a zero-length result is treated like a mismatch. -/
def reSubFuel (p : RePat) (rep : List Char) : Nat → List Char → List Char
  | _, [] => []
  | 0, s => s
  | fuel + 1, c :: t =>
    match rePatMatchAt p (c :: t) with
    | some (m + 1) => rep ++ reSubFuel p rep fuel (t.drop m)
    | _ => c :: reSubFuel p rep fuel t

/-- One re.sub call.  CPython parses and validates the replacement
template before scanning the string, so an invalid group reference
raises even when the pattern matches nothing. -/
def pyReSub (r : ReRule) (s : List Char) : Except ReErr (List Char) :=
  if (replRefs r.repl).any (fun g => decide (r.groups < g)) then
    Except.error ReErr.invalidGroupRef
  else
    Except.ok (reSubFuel r.pat (expandRepl r.repl) s.length s)

/-- Match at the start of s of the import pattern of the regex variant
(the keyword, one or more whitespace characters, one or more
non-newline characters, a newline), returning the matched length.  The
whitespace run is greedy with backtracking; for a fixed whitespace
count the non-newline run is forced to be maximal. -/
def matchImportAt (s : List Char) : Option Nat :=
  if pfx (("import").data) s then
    let rest := s.drop 6
    let wsRun := rest.takeWhile isPyWs
    (List.range wsRun.length).reverse.findSome? (fun j =>
      let k := j + 1
      let afterWs := rest.drop k
      let body := afterWs.takeWhile (fun c => !(c == '\n'))
      if 1 ≤ body.length ∧ pfx (['\n']) (afterWs.drop body.length) then
        some (6 + k + body.length + 1)
      else none)
  else none

/-- re.findall of the import pattern: left-to-right scan collecting
non-overlapping matches; the single group spans the whole pattern, so
each reported string is the whole match. -/
def findImportsFuel : Nat → List Char → List (List Char)
  | 0, _ => []
  | _, [] => []
  | fuel + 1, c :: t =>
    match matchImportAt (c :: t) with
    | some len => ((c :: t).take len) :: findImportsFuel fuel ((c :: t).drop len)
    | none => findImportsFuel fuel t

def findImports (s : List Char) : List (List Char) := findImportsFuel s.length s

namespace OptimizeLogging

/-- The replacement table of optimize_logging.py.  Each pattern is the
raw regex of the source (shown in the comment) translated to its shape:
escaped metacharacters become plain characters of the literal, and the
bare dot-star of the emoji rules splits the pattern into prefix and
suffix.  The replacement strings are the Python string values, where a
double backslash of the source denotes one backslash character. -/
def replacements : List ReRule := [
  -- pattern: print\("🔄 JournalView: Loading drawing for journal page date: \(currentDate\)"\)
  ⟨RePat.lit (("print(\"🔄 JournalView: Loading drawing for journal page date: (currentDate)\")").data), 0,
   ("logPerformance(\"Loading drawing for journal page date: \\(currentDate)\")").data⟩,
  -- pattern: print\("🔄 JournalView: Loaded existing drawing for date: \(targetDate\)"\)
  ⟨RePat.lit (("print(\"🔄 JournalView: Loaded existing drawing for date: (targetDate)\")").data), 0,
   ("logPerformance(\"Loaded existing drawing for date: \\(targetDate)\")").data⟩,
  -- pattern: print\("⚠️ JournalView: Date changed during drawing load, ignoring stale data"\)
  ⟨RePat.lit (("print(\"⚠️ JournalView: Date changed during drawing load, ignoring stale data\")").data), 0,
   ("logWarning(\"Date changed during drawing load, ignoring stale data\")").data⟩,
  -- pattern: print\("🔄 JournalView: No existing drawing found for date: \(targetDate\)"\)
  ⟨RePat.lit (("print(\"🔄 JournalView: No existing drawing found for date: (targetDate)\")").data), 0,
   ("logPerformance(\"No existing drawing found for date: \\(targetDate)\")").data⟩,
  -- pattern: print\("⚠️ JournalView: Save blocked - operation in progress"\)
  ⟨RePat.lit (("print(\"⚠️ JournalView: Save blocked - operation in progress\")").data), 0,
   ("logWarning(\"Save blocked - operation in progress\")").data⟩,
  -- pattern: print\("💾 JournalView: Starting explicit save to iCloud for \(currentDate\)"\)
  ⟨RePat.lit (("print(\"💾 JournalView: Starting explicit save to iCloud for (currentDate)\")").data), 0,
   ("logPerformance(\"Starting explicit save to iCloud for \\(currentDate)\")").data⟩,
  -- pattern: print\("💾 JournalView: Saving drawing to iCloud"\)
  ⟨RePat.lit (("print(\"💾 JournalView: Saving drawing to iCloud\")").data), 0,
   ("logPerformance(\"Saving drawing to iCloud\")").data⟩,
  -- pattern: print\("💾 JournalView: Saving photos to iCloud"\)
  ⟨RePat.lit (("print(\"💾 JournalView: Saving photos to iCloud\")").data), 0,
   ("logPerformance(\"Saving photos to iCloud\")").data⟩,
  -- pattern: print\("✅ JournalView: Successfully saved to iCloud"\)
  ⟨RePat.lit (("print(\"✅ JournalView: Successfully saved to iCloud\")").data), 0,
   ("logInfo(\"Successfully saved to iCloud\")").data⟩,
  -- pattern: print\("❌ JournalView: Failed to save to iCloud: \(error\.localizedDescription\)"\)
  ⟨RePat.lit (("print(\"❌ JournalView: Failed to save to iCloud: (error.localizedDescription)\")").data), 0,
   ("logError(\"Failed to save to iCloud: \\(error.localizedDescription)\")").data⟩,
  -- pattern: print\("⚠️.*"\)
  ⟨RePat.wild (("print(\"⚠️").data) (("\")").data), 0,
   ("logWarning(\"\\1\")").data⟩,
  -- pattern: print\("❌.*"\)
  ⟨RePat.wild (("print(\"❌").data) (("\")").data), 0,
   ("logError(\"\\1\")").data⟩,
  -- pattern: print\("✅.*"\)
  ⟨RePat.wild (("print(\"✅").data) (("\")").data), 0,
   ("logInfo(\"\\1\")").data⟩,
  -- pattern: print\("🔄.*"\)
  ⟨RePat.wild (("print(\"🔄").data) (("\")").data), 0,
   ("logPerformance(\"\\1\")").data⟩,
  -- pattern: print\("📸.*"\)
  ⟨RePat.wild (("print(\"📸").data) (("\")").data), 0,
   ("logPerformance(\"\\1\")").data⟩,
  -- pattern: print\("💾.*"\)
  ⟨RePat.wild (("print(\"💾").data) (("\")").data), 0,
   ("logPerformance(\"\\1\")").data⟩,
  -- pattern: print\("📥.*"\)
  ⟨RePat.wild (("print(\"📥").data) (("\")").data), 0,
   ("logPerformance(\"\\1\")").data⟩
]
/-- The newline-terminated import line inserted by the regex variant. -/
def importLineNl : List Char := ("import PerformanceLogger\n").data

/-- Import insertion of optimize_logging.py: collect all matches of
the regex pattern; when some exist, take the text of the last one and
insert the new line after every occurrence of that text, via
str.replace. -/
def importStep (content : List Char) : List Char :=
  if !(ifxB targetImport content) && ifxB printMarker content then
    match (findImports content).getLast? with
    | some last => pyReplace content last (last ++ importLineNl)
    | none => content
  else content

/-- The rule loop with exception propagation: the first error aborts. -/
def applyRegexRules : List ReRule → List Char → Except ReErr (List Char)
  | [], c => Except.ok c
  | r :: rs, c =>
    match pyReSub r c with
    | Except.error e => Except.error e
    | Except.ok c2 => applyRegexRules rs c2

/-- optimize_file of optimize_logging.py: import step, rule loop, and
conditional write-back; an re error propagates to the caller and the
file is not written. -/
def optimize_file (content : List Char) : Except ReErr FileResult :=
  match applyRegexRules replacements (importStep content) with
  | Except.error e => Except.error e
  | Except.ok c2 =>
    Except.ok (if c2 = content then ⟨none, false⟩ else ⟨some c2, true⟩)

end OptimizeLogging

/-- State of one file after an optimize_file call that completed. -/
def processedState (opt : List Char → Except ReErr FileResult) (c : List Char) :
    List Char :=
  match opt c with
  | Except.ok r => r.written.getD c
  | Except.error _ => c

/-- The loop of main: process the files in order, overwrite on demand,
count the files reporting a change.  No exception is caught, so an
error aborts the loop; the erroring file and all later files keep their
contents, and the returned number is the counter value at that moment. -/
def runMainWith (opt : List Char → Except ReErr FileResult) :
    List (List Char) → List (List Char) × Option ReErr × Nat
  | [] => ([], none, 0)
  | c :: rest =>
    match opt c with
    | Except.error e => (c :: rest, some e, 0)
    | Except.ok r =>
      let out := runMainWith opt rest
      ((r.written.getD c) :: out.1, out.2.1, out.2.2 + (if r.ret then 1 else 0))

/-- A rule whose replacement template references a group the pattern
does not define. -/
def badRule (r : ReRule) : Bool :=
  (replRefs r.repl).any (fun g => decide (r.groups < g))

theorem pyReSub_ok {r : ReRule} (h : badRule r = false) (s : List Char) :
    pyReSub r s = Except.ok (reSubFuel r.pat (expandRepl r.repl) s.length s) := by
  unfold pyReSub
  unfold badRule at h
  rw [h]
  rfl

theorem pyReSub_err {r : ReRule} (h : badRule r = true) (s : List Char) :
    pyReSub r s = Except.error ReErr.invalidGroupRef := by
  unfold pyReSub
  unfold badRule at h
  rw [h]
  rfl

theorem applyRegexRules_cons (r : ReRule) (rs : List ReRule) (c : List Char) :
    OptimizeLogging.applyRegexRules (r :: rs) c =
      (match pyReSub r c with
        | Except.error e => Except.error e
        | Except.ok c2 => OptimizeLogging.applyRegexRules rs c2) := rfl

/-- As soon as the rule list contains a rule with an invalid group
reference, the whole loop raises: every rule before it returns
normally, and the template validation of the bad rule raises no matter
what the content is. -/
theorem applyRegexRules_err :
    ∀ (rs : List ReRule) (c : List Char), (∃ r ∈ rs, badRule r = true) →
      OptimizeLogging.applyRegexRules rs c = Except.error ReErr.invalidGroupRef := by
  intro rs
  induction rs with
  | nil =>
    rintro c ⟨r, hr, _⟩
    simp at hr
  | cons x rest ih =>
    rintro c ⟨r, hr, hbad⟩
    rw [applyRegexRules_cons]
    cases hx : badRule x with
    | true => rw [pyReSub_err hx]
    | false =>
      rw [pyReSub_ok hx]
      refine ih _ ⟨r, ?_, hbad⟩
      rcases List.mem_cons.mp hr with rfl | h2
      · rw [hx] at hbad; cases hbad
      · exact h2

theorem regex_has_bad : ∃ r ∈ OptimizeLogging.replacements, badRule r = true := by
  decide

/-- optimize_file of the regex variant raises on every content: the
write-back is never reached. -/
theorem optimize_file_regex_err (c : List Char) :
    OptimizeLogging.optimize_file c = Except.error ReErr.invalidGroupRef := by
  unfold OptimizeLogging.optimize_file
  rw [applyRegexRules_err _ _ regex_has_bad]

/-- Fail-fast shape of the main loop: when the files before index k all
process normally and the file at k raises, the loop stops there; files
before k hold their processed state, every file from k on is
untouched, and the error propagates. -/
theorem runMainWith_abort (opt : List Char → Except ReErr FileResult) :
    ∀ (files : List (List Char)) (k : Nat) (e : ReErr),
      k < files.length →
      (∀ j, j < k → ∀ cj, files[j]? = some cj → ∃ r, opt cj = Except.ok r) →
      (∀ ck, files[k]? = some ck → opt ck = Except.error e) →
      (runMainWith opt files).1 =
          (files.take k).map (processedState opt) ++ files.drop k ∧
        (runMainWith opt files).2.1 = some e := by
  intro files
  induction files with
  | nil =>
    intro k e hk _ _
    simp at hk
  | cons c rest ih =>
    intro k e hk hgood herr
    cases k with
    | zero =>
      have he : opt c = Except.error e := herr c (by simp)
      unfold runMainWith
      rw [he]
      exact ⟨by simp, rfl⟩
    | succ k2 =>
      obtain ⟨r, hr⟩ := hgood 0 (Nat.succ_pos k2) c (by simp)
      unfold runMainWith
      rw [hr]
      obtain ⟨h1, h2⟩ := ih k2 e (by simpa using hk)
        (fun j hj cj hcj => hgood (j + 1) (by omega) cj (by simpa using hcj))
        (fun ck hck => herr ck (by simpa using hck))
      constructor
      · simp only [List.take, List.drop, List.map, List.cons_append]
        rw [h1]
        have : processedState opt c = r.written.getD c := by
          unfold processedState
          rw [hr]
        rw [this]
      · simpa using h2

theorem insertAt_ne_nil {α : Type} :
    ∀ (n : Nat) (a : α) (l : List α), insertAt n a l ≠ [] := by
  intro n a l
  cases n with
  | zero => cases l <;> simp [insertAt]
  | succ n => cases l <;> simp [insertAt]

/-- Discriminator for the bare-wildcard pattern shape. -/
def isWildPat : RePat → Bool
  | RePat.wild _ _ => true
  | RePat.lit _ => false

/-- Claim C1: for file content without the print-call marker the
line-scan variant leaves the content byte for byte unchanged and
returns false.  The regex variant also leaves the file unchanged but
never returns false: it raises the invalid group reference error of its
wildcard rules, which is the code bug recorded for this claim. -/
theorem claim1 (c : List Char) (h : ¬ Ifx printMarker c) :
    OptimizeLoggingSimple.optimize_file c = ⟨none, false⟩ ∧
      OptimizeLogging.optimize_file c = Except.error ReErr.invalidGroupRef := by
  constructor
  · have hid : OptimizeLoggingSimple.process c = c := by
      unfold OptimizeLoggingSimple.process
      rw [OptimizeLoggingSimple.importStep_no_marker h]
      exact applyRules_id _ OptimizeLoggingSimple.rules_ne c
        (fun r hr hocc =>
          h (pfx_ifx_trans (OptimizeLoggingSimple.rules_marker r hr) hocc))
    unfold OptimizeLoggingSimple.optimize_file
    rw [if_pos hid]
  · exact optimize_file_regex_err c

theorem claim1_witness :
    (¬ Ifx printMarker (("hello\n").data)) ∧
      OptimizeLoggingSimple.optimize_file (("hello\n").data) = ⟨none, false⟩ ∧
      OptimizeLogging.optimize_file (("hello\n").data) =
        Except.error ReErr.invalidGroupRef :=
  ⟨by decide, claim1 (("hello\n").data) (by decide)⟩

/-- Claim C2: the transformation of the line-scan variant is idempotent
and a second optimize_file run on the first output writes nothing and
returns false; the regex variant raises on every input (the recorded
code bug), so its first run never completes and the claimed second run
cannot be observed. -/
theorem claim2 :
    (∀ c : List Char,
      OptimizeLoggingSimple.process (OptimizeLoggingSimple.process c) =
        OptimizeLoggingSimple.process c ∧
      OptimizeLoggingSimple.optimize_file (OptimizeLoggingSimple.process c) =
        ⟨none, false⟩) ∧
    (∀ c : List Char,
      OptimizeLogging.optimize_file c = Except.error ReErr.invalidGroupRef) := by
  constructor
  · intro c
    have h := OptimizeLoggingSimple.process_idem c
    refine ⟨h, ?_⟩
    unfold OptimizeLoggingSimple.optimize_file
    rw [if_pos h]
  · exact optimize_file_regex_err

/-- Claim C3 counterexample: applying the bare-wildcard warning rule to
a line only it matches does not complete with any replacement string:
the call raises the invalid group reference error. -/
theorem claim3_counterexample :
    pyReSub (OptimizeLogging.replacements.get ⟨10, by decide⟩)
      (("print(\"⚠️ something happened\")").data) =
      Except.error ReErr.invalidGroupRef := rfl

/-- Claim C3 amended: the rules with a bare wildcard are exactly the
rules whose replacement references group one while the pattern captures
nothing, and each of them raises the invalid group reference error on
every input; the operation never completes with a placeholder string. -/
theorem claim3_amended :
    (∀ r ∈ OptimizeLogging.replacements, badRule r = isWildPat r.pat) ∧
    (∀ r ∈ OptimizeLogging.replacements, isWildPat r.pat = true →
      ∀ s, pyReSub r s = Except.error ReErr.invalidGroupRef) := by
  have hiff : ∀ r ∈ OptimizeLogging.replacements, badRule r = isWildPat r.pat := by
    decide
  refine ⟨hiff, ?_⟩
  intro r hr hw s
  have hbad : badRule r = true := by rw [hiff r hr, hw]
  exact pyReSub_err hbad s

theorem claim3_witness :
    ((OptimizeLogging.replacements.get ⟨10, by decide⟩) ∈
        OptimizeLogging.replacements) ∧
    isWildPat (OptimizeLogging.replacements.get ⟨10, by decide⟩).pat = true ∧
    pyReSub (OptimizeLogging.replacements.get ⟨10, by decide⟩)
        (("print(\"⚠️ x\")").data) = Except.error ReErr.invalidGroupRef :=
  ⟨by decide, by decide,
    claim3_amended.2 (OptimizeLogging.replacements.get ⟨10, by decide⟩)
      (by decide) (by decide) (("print(\"⚠️ x\")").data)⟩

/-- Claim C4 counterexample: on content whose last regex-matched import
text occurs twice, the import step of the regex variant inserts two
copies of the import line, not exactly one; the input contained none. -/
theorem claim4_counterexample :
    ((splitNl (OptimizeLogging.importStep
        (("import A\nx\nimport A\nprint(\"z\")\n").data))).filter
      (fun l => decide (l = targetImport))).length = 2 ∧
    ((splitNl (("import A\nx\nimport A\nprint(\"z\")\n").data)).filter
      (fun l => decide (l = targetImport))).length = 0 := by
  decide

/-- Claim C4 amended: in the line-scan variant, under the guard, when
there is an import line exactly one copy of the import line is
inserted, immediately after the line whose index is the last one
passing the import test; with no import line the step is a no-op and
the replacement loop still runs on the unchanged content.  The regex
variant instead inserts one copy after every occurrence of the text of
its last match, which duplicates the import line when that text occurs
twice, as on the content of the counterexample. -/
theorem claim4_amended (c : List Char) (ht : ¬ Ifx targetImport c)
    (hm : Ifx printMarker c) :
    (∀ k, lastImportIdx (splitNl c) = some k →
      splitNl (OptimizeLoggingSimple.importStep c) =
        (splitNl c).take (k + 1) ++ targetImport :: (splitNl c).drop (k + 1) ∧
      (∃ lk, (splitNl c)[k]? = some lk ∧ isImportLine lk = true) ∧
      (∀ i li, k < i → (splitNl c)[i]? = some li → isImportLine li = false)) ∧
    (lastImportIdx (splitNl c) = none →
      OptimizeLoggingSimple.importStep c = c ∧
      OptimizeLoggingSimple.process c =
        applyRules OptimizeLoggingSimple.replacements c) ∧
    ((splitNl (OptimizeLogging.importStep
        (("import A\nx\nimport A\nprint(\"z\")\n").data))).filter
      (fun l => decide (l = targetImport))).length = 2 := by
  have hg : (!(ifxB targetImport c) && ifxB printMarker c) = true := by
    have hb1 : ifxB targetImport c = false := by
      cases hx : ifxB targetImport c
      · rfl
      · exact absurd ((ifxB_iff _ _).mp hx) ht
    have hb2 : ifxB printMarker c = true := (ifxB_iff _ _).mpr hm
    rw [hb1, hb2]
    rfl
  refine ⟨?_, ?_, by decide⟩
  · intro k hidx
    obtain ⟨hex, hafter⟩ := lastImportIdx_some_spec hidx
    have hk : k < (splitNl c).length := lastImportIdx_some_lt hidx
    refine ⟨?_, hex, hafter⟩
    rw [OptimizeLoggingSimple.importStep_insert hg hidx]
    rw [splitNl_joinNl _ (insertAt_ne_nil _ _ _) ?_]
    · exact insertAt_decomp (k + 1) targetImport (splitNl c) (by omega)
    · intro l hl ch hch
      rcases mem_insertAt _ _ _ _ hl with rfl | hl2
      · intro hne
        subst hne
        revert hch
        decide
      · exact splitNl_no_nl c l hl2 ch hch
  · intro hidx
    have h1 : OptimizeLoggingSimple.importStep c = c :=
      OptimizeLoggingSimple.importStep_none hidx
    refine ⟨h1, ?_⟩
    unfold OptimizeLoggingSimple.process
    rw [h1]

theorem claim4_witness :
    (¬ Ifx targetImport (("import A\nprint(\"zzz\")\n").data)) ∧
    Ifx printMarker (("import A\nprint(\"zzz\")\n").data) ∧
    splitNl (OptimizeLoggingSimple.importStep
        (("import A\nprint(\"zzz\")\n").data)) =
      (splitNl (("import A\nprint(\"zzz\")\n").data)).take 1 ++ targetImport ::
        (splitNl (("import A\nprint(\"zzz\")\n").data)).drop 1 :=
  ⟨by decide, by decide,
    ((claim4_amended (("import A\nprint(\"zzz\")\n").data) (by decide)
      (by decide)).1 0 (by decide)).1⟩

/-- Claim C5: when the target import is already present together with
the print marker, the import-insertion step of both variants inserts
nothing (the content passes through unchanged), so the step cannot
duplicate the import line; the line-scan transformation then consists
of the replacement loop alone. -/
theorem claim5 (c : List Char) (h : Ifx targetImport c)
    (hm : Ifx printMarker c) :
    OptimizeLoggingSimple.importStep c = c ∧
      OptimizeLogging.importStep c = c ∧
      OptimizeLoggingSimple.process c =
        applyRules OptimizeLoggingSimple.replacements c := by
  have hb : ifxB targetImport c = true := (ifxB_iff _ _).mpr h
  refine ⟨OptimizeLoggingSimple.importStep_target h, ?_, ?_⟩
  · simp [OptimizeLogging.importStep, hb]
  · unfold OptimizeLoggingSimple.process
    rw [OptimizeLoggingSimple.importStep_target h]

theorem claim5_witness :
    Ifx targetImport (("import PerformanceLogger\nprint(\"x\")\n").data) ∧
    Ifx printMarker (("import PerformanceLogger\nprint(\"x\")\n").data) ∧
    OptimizeLoggingSimple.importStep
        (("import PerformanceLogger\nprint(\"x\")\n").data) =
      (("import PerformanceLogger\nprint(\"x\")\n").data) ∧
    OptimizeLogging.importStep
        (("import PerformanceLogger\nprint(\"x\")\n").data) =
      (("import PerformanceLogger\nprint(\"x\")\n").data) := by
  have h := claim5 (("import PerformanceLogger\nprint(\"x\")\n").data)
    (by decide) (by decide)
  exact ⟨by decide, by decide, h.1, h.2.1⟩

/-- Claim C6: the line-scan variant returns true exactly when the
transformed content differs from the original, and writes exactly the
transformed content in that case, leaving the file untouched otherwise;
the regex variant raises before reaching the comparison, so it never
writes and never returns a boolean (the recorded code bug). -/
theorem claim6 (c : List Char) :
    ((OptimizeLoggingSimple.optimize_file c).ret = true ↔
      OptimizeLoggingSimple.process c ≠ c) ∧
    ((OptimizeLoggingSimple.optimize_file c).written =
      if OptimizeLoggingSimple.process c = c then none
      else some (OptimizeLoggingSimple.process c)) ∧
    OptimizeLogging.optimize_file c = Except.error ReErr.invalidGroupRef := by
  unfold OptimizeLoggingSimple.optimize_file
  by_cases h : OptimizeLoggingSimple.process c = c
  · rw [if_pos h, if_pos h]
    refine ⟨?_, rfl, optimize_file_regex_err c⟩
    simp only [show (⟨none, false⟩ : FileResult).ret = false from rfl]
    simp [h]
  · rw [if_neg h, if_neg h]
    refine ⟨?_, rfl, optimize_file_regex_err c⟩
    simp only [show (⟨some (OptimizeLoggingSimple.process c), true⟩ : FileResult).ret
      = true from rfl]
    simp [h]

/-- Claim C7: rules act sequentially on the accumulating text: over the
first ten rules of the regex variant the earlier literal check-mark
rule already rewrites the line that the later bare-wildcard check-mark
rule could also match, but the full run then raises at the first
bare-wildcard rule, so no file output exists in which that choice could
be observed; the line-scan variant rewrites the same line by its
earlier literal rule. -/
theorem claim7 :
    OptimizeLogging.applyRegexRules (OptimizeLogging.replacements.take 10)
        (("print(\"✅ JournalView: Successfully saved to iCloud\")\n").data) =
      Except.ok (("logInfo(\"Successfully saved to iCloud\")\n").data) ∧
    OptimizeLogging.optimize_file
        (("print(\"✅ JournalView: Successfully saved to iCloud\")\n").data) =
      Except.error ReErr.invalidGroupRef ∧
    OptimizeLoggingSimple.process
        (("print(\"✅ JournalView: Successfully saved to iCloud\")\n").data) =
      (("logInfo(\"Successfully saved to iCloud\")\n").data) := by
  refine ⟨rfl, optimize_file_regex_err _, by decide⟩

/-- Claim C8: on a file containing the check-mark save line, the
line-scan variant replaces exactly that line by the logInfo line,
writes the result, returns true, and the counter of the main loop over
that single file is one. -/
theorem claim8 :
    OptimizeLoggingSimple.optimize_file
        (("    print(\"✅ JournalView: Successfully saved to iCloud\")\nreturn\n").data) =
      ⟨some (("    logInfo(\"Successfully saved to iCloud\")\nreturn\n").data), true⟩ ∧
    (runMainWith (fun c => Except.ok (OptimizeLoggingSimple.optimize_file c))
      [(("    print(\"✅ JournalView: Successfully saved to iCloud\")\nreturn\n").data)]).2.2
      = 1 := by
  constructor
  · decide
  · rfl

/-- Claim C9: the main loop catches nothing: when the files before
index k process normally and the file at index k raises, the loop
aborts with that error; the files before k keep their rewritten state
and every file from k on, the failing one included, is untouched. -/
theorem claim9 (opt : List Char → Except ReErr FileResult)
    (files : List (List Char)) (k : Nat) (e : ReErr)
    (hk : k < files.length)
    (hgood : ∀ j, j < k → ∀ cj, files[j]? = some cj → ∃ r, opt cj = Except.ok r)
    (herr : ∀ ck, files[k]? = some ck → opt ck = Except.error e) :
    (runMainWith opt files).1 =
        (files.take k).map (processedState opt) ++ files.drop k ∧
      (runMainWith opt files).2.1 = some e :=
  runMainWith_abort opt files k e hk hgood herr

theorem claim9_witness :
    (runMainWith OptimizeLogging.optimize_file [("x").data, ("y").data]).1 =
        [("x").data, ("y").data] ∧
      (runMainWith OptimizeLogging.optimize_file [("x").data, ("y").data]).2.1 =
        some ReErr.invalidGroupRef := by
  have h := claim9 OptimizeLogging.optimize_file [("x").data, ("y").data] 0
    ReErr.invalidGroupRef (by decide)
    (fun j hj cj hcj => absurd hj (by omega))
    (fun ck hck => by
      have hc : ck = ("x").data := by
        have h0 : (([("x").data, ("y").data] : List (List Char))[0]?) =
            some (("x").data) := rfl
        rw [h0] at hck
        exact ((Option.some.injEq _ _).mp hck).symm
      rw [hc]
      exact optimize_file_regex_err _)
  simpa using h

/-- Claim C10: on content with the print marker, lacking the target
text, with an import line, and matched by no rule, the line-scan
variant inserts the new line after the last import line, writes
exactly that insertion (all print calls left in place), and returns
true; the regex variant raises instead of rewriting (the recorded code
bug). -/
theorem claim10 (c : List Char) (ht : ¬ Ifx targetImport c)
    (hm : Ifx printMarker c) (k : Nat)
    (hidx : lastImportIdx (splitNl c) = some k)
    (hnone : ∀ r ∈ OptimizeLoggingSimple.replacements, ¬ Ifx r.1 c) :
    OptimizeLoggingSimple.optimize_file c =
      ⟨some (joinNl (insertAt (k + 1) targetImport (splitNl c))), true⟩ ∧
    OptimizeLogging.optimize_file c = Except.error ReErr.invalidGroupRef := by
  have hg : (!(ifxB targetImport c) && ifxB printMarker c) = true := by
    have hb1 : ifxB targetImport c = false := by
      cases hx : ifxB targetImport c
      · rfl
      · exact absurd ((ifxB_iff _ _).mp hx) ht
    have hb2 : ifxB printMarker c = true := (ifxB_iff _ _).mpr hm
    rw [hb1, hb2]
    rfl
  have h1 : OptimizeLoggingSimple.importStep c =
      joinNl (insertAt (k + 1) targetImport (splitNl c)) :=
    OptimizeLoggingSimple.importStep_insert hg hidx
  have hnonl : ∀ l ∈ insertAt (k + 1) targetImport (splitNl c), ∀ ch ∈ l, ch ≠ '\n' := by
    intro l hl ch hch
    rcases mem_insertAt _ _ _ _ hl with rfl | hl2
    · intro hne
      subst hne
      revert hch
      decide
    · exact splitNl_no_nl c l hl2 ch hch
  have hnoc1 : ∀ r ∈ OptimizeLoggingSimple.replacements,
      ¬ Ifx r.1 (joinNl (insertAt (k + 1) targetImport (splitNl c))) := by
    intro r hr hocc
    obtain ⟨l, hl, hifx⟩ := ifx_joinNl_elim (OptimizeLoggingSimple.rules_ne r hr)
      (OptimizeLoggingSimple.rules_nonl r hr).1 _ hocc
    rcases mem_insertAt _ _ _ _ hl with rfl | hl2
    · exact OptimizeLoggingSimple.rules_not_in_import r hr hifx
    · have hlc : Ifx l c := by
        have := ifx_joinNl_of_mem _ _ hl2
        rwa [joinNl_splitNl c] at this
      exact hnone r hr (ifx_trans hifx hlc)
  have hproc : OptimizeLoggingSimple.process c =
      joinNl (insertAt (k + 1) targetImport (splitNl c)) := by
    unfold OptimizeLoggingSimple.process
    rw [h1]
    exact applyRules_id _ OptimizeLoggingSimple.rules_ne _ hnoc1
  have hne : OptimizeLoggingSimple.process c ≠ c := by
    intro heq
    apply ht
    rw [← heq, hproc]
    exact ifx_joinNl_of_mem _ _ (mem_insertAt_self _ _ _)
  constructor
  · unfold OptimizeLoggingSimple.optimize_file
    rw [if_neg hne, hproc]
  · exact optimize_file_regex_err c

theorem claim10_witness :
    OptimizeLoggingSimple.optimize_file (("import A\nprint(\"zzz\")\n").data) =
      ⟨some (("import A\nimport PerformanceLogger\nprint(\"zzz\")\n").data), true⟩ :=
  (claim10 (("import A\nprint(\"zzz\")\n").data) (by decide) (by decide) 0
    (by decide) (by decide)).1.trans (by decide)
